import Mathlib

/-!
Shallow embedding of the notebook-DAG backend (`backend/parser.py` and
`backend/main.py`) and proofs about its specification.

Conventions used throughout:
* Python `set` values that the code only ever tests for membership, adds to,
  or iterates are modelled as duplicate-free `List`s in insertion order
  (Python set iteration order is unspecified; the insertion order is one
  deterministic refinement of it, and no claim below depends on which
  iteration order is chosen).
* Python `dict`s are modelled either as association lists (when the key
  order matters, e.g. `node_map`) or as total functions updated pointwise
  (when the code initialises every relevant key up front, e.g. `adj`,
  `indeg`, `undirected`; the function returns the initial value on keys the
  Python dict would not contain, and every access the Python code performs
  is at an initialised key).
* Python `while` loops are modelled as fuel-indexed structural recursion,
  called with a fuel value that provably dominates the loop's decreasing
  measure, so the fuel branch is never taken on any input (this keeps every
  definition kernel-computable).
* The Python parser, `exec`, `eval` and `repr` are external collaborators
  (the CPython runtime); they enter the model as parameters.
-/

namespace ViewPython

/-! ### Model of the Python `ast` fragment visited by `NameCollector` -/

/-- Model of a Python expression as seen by `NameCollector`
(`backend/parser.py`): the visitor distinguishes `ast.Name` (with its
load/store context), `ast.Tuple` and `ast.List` (recursed into by
`_collect_target`), and treats every other expression node as an opaque
container of child expressions reached via `generic_visit`. -/
inductive ExprA where
  | name (id : String) (isLoad : Bool)
  | tuple (elts : List ExprA)
  | listE (elts : List ExprA)
  | other (children : List ExprA)

/-- Model of `ast.alias` (import alias): `name` and optional `asname`. -/
structure AliasA where
  name : String
  asname : Option String

/-- Model of a Python statement as seen by `NameCollector`: the statement
forms with a dedicated `visit_*` method, plus `exprStmt` (`ast.Expr`, which
`_run_cell` also inspects) and an opaque `otherStmt` holding the child
expressions and child statements that `generic_visit` would reach. -/
inductive StmtA where
  | assign (targets : List ExprA) (value : ExprA)
  | annAssign (target : ExprA) (ann : ExprA) (value : Option ExprA)
  | augAssign (target : ExprA) (value : ExprA)
  | funcDef (fname : String) (childExprs : List ExprA) (body : List StmtA)
  | asyncFuncDef (fname : String) (childExprs : List ExprA) (body : List StmtA)
  | classDef (cname : String) (childExprs : List ExprA) (body : List StmtA)
  | importS (names : List AliasA)
  | importFrom (moduleName : Option String) (names : List AliasA)
  | exprStmt (e : ExprA)
  | otherStmt (childExprs : List ExprA) (body : List StmtA)

/-- Model of `ast.Module`: the list of top-level statements. -/
structure PyModule where
  body : List StmtA

/-! `NameCollector._collect_target`: a `Name` target contributes its
identifier; `Tuple`/`List` targets are recursed into; any other target
contributes nothing. -/

mutual

/-- `_collect_target` on one target node. -/
def collectTarget : ExprA → Finset String
  | .name id _ => {id}
  | .tuple es => collectTargetList es
  | .listE es => collectTargetList es
  | .other _ => ∅

/-- `_collect_target` folded over a list of sibling targets. -/
def collectTargetList : List ExprA → Finset String
  | [] => ∅
  | e :: es => collectTarget e ∪ collectTargetList es

end

/-! `visit_Name`: a `Name` in `Load` context is a use; `generic_visit`
recurses into every child expression. -/

mutual

/-- All identifiers referenced in load context anywhere inside an
expression (`visit_Name` over the `generic_visit` traversal). -/
def exprUses : ExprA → Finset String
  | .name id isLoad => if isLoad then {id} else ∅
  | .tuple es => exprUsesList es
  | .listE es => exprUsesList es
  | .other es => exprUsesList es

/-- `exprUses` folded over a list of expressions. -/
def exprUsesList : List ExprA → Finset String
  | [] => ∅
  | e :: es => exprUses e ∪ exprUsesList es

end

/-- Name bound by one import alias: `alias.asname or
alias.name.split(".")[0]` (for `visit_Import`). -/
def importAliasName (a : AliasA) : String :=
  match a.asname with
  | some s => s
  | none => (a.name.splitOn ".").headI

/-- Name bound by one `from ... import` alias: `alias.asname or alias.name`
(for `visit_ImportFrom`). -/
def importFromAliasName (a : AliasA) : String :=
  match a.asname with
  | some s => s
  | none => a.name

/-- Names bound by a list of import aliases under `visit_Import`. -/
def importNames : List AliasA → Finset String
  | [] => ∅
  | a :: as' => {importAliasName a} ∪ importNames as'

/-- Names bound by a list of aliases under `visit_ImportFrom`. -/
def importFromNames : List AliasA → Finset String
  | [] => ∅
  | a :: as' => {importFromAliasName a} ∪ importFromNames as'

mutual

/-- The `defs` set collected by `NameCollector` from one statement:
assignment targets (plain, annotated, augmented), function/class names,
names bound by imports; `generic_visit` recurses into nested statement bodies
(so names bound anywhere inside the cell are collected). `visit_Import`
and `visit_ImportFrom` do not call `generic_visit`. -/
def stmtDefs : StmtA → Finset String
  | .assign ts _ => collectTargetList ts
  | .annAssign t _ _ => collectTarget t
  | .augAssign t _ => collectTarget t
  | .funcDef n _ body => {n} ∪ stmtListDefs body
  | .asyncFuncDef n _ body => {n} ∪ stmtListDefs body
  | .classDef n _ body => {n} ∪ stmtListDefs body
  | .importS ns => importNames ns
  | .importFrom _ ns => importFromNames ns
  | .exprStmt _ => ∅
  | .otherStmt _ body => stmtListDefs body

/-- `stmtDefs` over a list of statements. -/
def stmtListDefs : List StmtA → Finset String
  | [] => ∅
  | s :: ss => stmtDefs s ∪ stmtListDefs ss

end

mutual

/-- The `uses` set collected by `NameCollector` from one statement: every
load-context `Name` reached by the `generic_visit` traversal (which, for
the statements with a dedicated visitor, visits all the children the
Python visitor visits; imports visit nothing). -/
def stmtUses : StmtA → Finset String
  | .assign ts v => exprUsesList ts ∪ exprUses v
  | .annAssign t ann v =>
      collectUsesOpt v (exprUses t ∪ exprUses ann)
  | .augAssign t v => exprUses t ∪ exprUses v
  | .funcDef _ es body => exprUsesList es ∪ stmtListUses body
  | .asyncFuncDef _ es body => exprUsesList es ∪ stmtListUses body
  | .classDef _ es body => exprUsesList es ∪ stmtListUses body
  | .importS _ => ∅
  | .importFrom _ _ => ∅
  | .exprStmt e => exprUses e
  | .otherStmt es body => exprUsesList es ∪ stmtListUses body

/-- Uses of an optional child expression, unioned onto an accumulator. -/
def collectUsesOpt : Option ExprA → Finset String → Finset String
  | none, acc => acc
  | some e, acc => exprUses e ∪ acc

/-- `stmtUses` over a list of statements. -/
def stmtListUses : List StmtA → Finset String
  | [] => ∅
  | s :: ss => stmtUses s ∪ stmtListUses ss

end

/-- `defs` of a whole module body. -/
def moduleDefs (m : PyModule) : Finset String := stmtListDefs m.body

/-- `uses` of a whole module body. -/
def moduleUses (m : PyModule) : Finset String := stmtListUses m.body

/-- `analyze_cell` (`backend/parser.py` lines 56-63), parameterised by the
external Python parser (`ast.parse`); a parse failure (`SyntaxError`,
modelled as `none`) yields two empty sets, otherwise the collector's
`defs` and `uses - defs` are returned. -/
def analyze_cell (parse : String → Option PyModule) (code : String) :
    Finset String × Finset String :=
  match parse code with
  | none => (∅, ∅)
  | some m => (moduleDefs m, moduleUses m \ moduleDefs m)

/-! ### `build_graph` (`backend/parser.py` lines 65-98) -/

/-- A cell is skipped when it is empty or whitespace-only
(`if c and c.strip()`): `c.strip()` is empty exactly when every character
of `c` is whitespace, which also covers the empty string. -/
def isBlankCode (s : String) : Bool := s.data.all (·.isWhitespace)

/-- The character of one decimal digit (only ever applied to `d < 10`). -/
def decDigitChar (d : ℕ) : Char :=
  match d with
  | 0 => '0' | 1 => '1' | 2 => '2' | 3 => '3' | 4 => '4'
  | 5 => '5' | 6 => '6' | 7 => '7' | 8 => '8' | 9 => '9'
  | _ => '*'

/-- Little-endian decimal digits of `n`, fuel-indexed (the fuel branch is
unreachable when `n ≤ fuel`; see `decDigitsRev_eq_digits`). -/
def decDigitsRev : ℕ → ℕ → List ℕ
  | 0, _ => []
  | fuel + 1, n => if n = 0 then [] else n % 10 :: decDigitsRev fuel (n / 10)

/-- Decimal string of a natural number (Python `str(n)` /
`f"...{n}..."`). -/
def natStr (n : ℕ) : String :=
  if n = 0 then "0"
  else ((decDigitsRev n n).reverse.map decDigitChar).asString

/-- Node id `f"cell-{k}"` for 1-based index `k`. -/
def cellId (k : ℕ) : String := "cell-" ++ natStr k

/-- Node label `f"Cell {k}"`. -/
def cellLabel (k : ℕ) : String := "Cell " ++ natStr k

/-- Node record of the built graph: `{id, label, code}`. -/
structure GNode where
  id : String
  label : String
  code : String
deriving Repr, DecidableEq

/-- Edge record of the built graph: `{source, target, labels}` with
`labels` an ordered list. -/
structure GEdge where
  source : String
  target : String
  labels : List String
deriving Repr, DecidableEq

/-- Lexicographic less-or-equal on character lists, comparing code
points — Python's string ordering. -/
def lexLe : List Char → List Char → Bool
  | [], _ => true
  | _ :: _, [] => false
  | c :: cs, d :: ds => if c = d then lexLe cs ds else decide (c < d)

/-- Python's `<=` on strings. -/
def strLe (a b : String) : Bool := lexLe a.data b.data

/-- The sort relation used to model Python `sorted` on strings. -/
def strRel (a b : String) : Prop := strLe a b = true

/-- `lexLe` is total. -/
theorem lexLe_total : ∀ a b : List Char, lexLe a b = true ∨ lexLe b a = true
  | [], _ => by left; rfl
  | _ :: _, [] => by right; rfl
  | c :: cs, d :: ds => by
    rcases lt_trichotomy c d with h | h | h
    · left; simp [lexLe, h.ne, h]
    · subst h
      rcases lexLe_total cs ds with h | h
      · left; simpa [lexLe] using h
      · right; simpa [lexLe] using h
    · right; simp [lexLe, h.ne, h]

/-- `lexLe` is antisymmetric. -/
theorem lexLe_antisymm : ∀ a b : List Char,
    lexLe a b = true → lexLe b a = true → a = b
  | [], [], _, _ => rfl
  | [], _ :: _, _, h => by simp [lexLe] at h
  | _ :: _, [], h, _ => by simp [lexLe] at h
  | c :: cs, d :: ds, h₁, h₂ => by
    by_cases hcd : c = d
    · subst hcd
      simp only [lexLe, if_pos rfl] at h₁ h₂
      rw [lexLe_antisymm cs ds h₁ h₂]
    · simp only [lexLe, if_neg hcd, if_neg (Ne.symm hcd), decide_eq_true_eq] at h₁ h₂
      exact absurd h₂ (lt_asymm h₁)

/-- `lexLe` is transitive. -/
theorem lexLe_trans : ∀ a b c : List Char,
    lexLe a b = true → lexLe b c = true → lexLe a c = true
  | [], _, _, _, _ => rfl
  | _ :: _, [], _, h, _ => by simp [lexLe] at h
  | _ :: _, _ :: _, [], _, h => by simp [lexLe] at h
  | a :: as', b :: bs, c :: cs, h₁, h₂ => by
    by_cases hab : a = b
    · subst hab
      by_cases hbc : a = c
      · subst hbc
        simp only [lexLe, if_pos rfl] at h₁ h₂ ⊢
        exact lexLe_trans as' bs cs h₁ h₂
      · simpa [lexLe, hbc] using h₂
    · by_cases hbc : b = c
      · subst hbc
        simpa [lexLe, hab] using h₁
      · simp only [lexLe, if_neg hab, if_neg hbc, decide_eq_true_eq] at h₁ h₂
        have hac : a < c := lt_trans h₁ h₂
        simp [lexLe, hac.ne, hac]

instance strRel_total : IsTotal String strRel := ⟨fun a b => lexLe_total a.data b.data⟩

instance strRel_trans : IsTrans String strRel :=
  ⟨fun a b c => lexLe_trans a.data b.data c.data⟩

instance strRel_antisymm : IsAntisymm String strRel :=
  ⟨fun ⟨a⟩ ⟨b⟩ h₁ h₂ => by rw [lexLe_antisymm a b h₁ h₂]⟩

instance strRel_dec : DecidableRel strRel := fun a b => Bool.decEq (strLe a b) true

/-- Insertion sort on string lists; two permuted inputs give the same
output, so it lifts to finsets. -/
def sortL (l : List String) : List String := l.insertionSort strRel

/-- Permuted lists have equal `sortL` images. -/
theorem sortL_congr {l₁ l₂ : List String} (h : l₁.Perm l₂) : sortL l₁ = sortL l₂ := by
  unfold sortL
  exact List.eq_of_perm_of_sorted
    (((l₁.perm_insertionSort _).trans h).trans (l₂.perm_insertionSort _).symm)
    (l₁.sorted_insertionSort _) (l₂.sorted_insertionSort _)

/-- Python `sorted(...)` applied to a set of strings: the ascending list
of its elements. -/
def sortFinset (s : Finset String) : List String :=
  Quot.liftOn s.1 sortL (fun _ _ h => sortL_congr h)

/-- The `shared = sorted(defs_by_cell[i] & uses_by_cell[j])` list for the
pair `(i, j)` of 0-based positions in the filtered cell list. -/
def sharedNames (ds us : List (Finset String)) (i j : ℕ) : List String :=
  sortFinset ((ds.getD i ∅) ∩ (us.getD j ∅))

/-- `filtered = [c for c in cells if c and c.strip()]`. -/
def filteredCells (cells : List String) : List String :=
  cells.filter (fun c => !isBlankCode c)

/-- `defs_by_cell`: the `defs` component of `analyze_cell` for each
retained cell, in filtered order. -/
def defsByCell (parse : String → Option PyModule) (cells : List String) :
    List (Finset String) :=
  (filteredCells cells).map (fun c => (analyze_cell parse c).1)

/-- `uses_by_cell`: the unresolved-uses component of `analyze_cell` for
each retained cell, in filtered order. -/
def usesByCell (parse : String → Option PyModule) (cells : List String) :
    List (Finset String) :=
  (filteredCells cells).map (fun c => (analyze_cell parse c).2)

/-- The edge list of `build_graph`: for every ordered pair `i < j` of
0-based positions in the filtered sequence whose `shared` list is
non-empty, one edge `cell-(i+1) → cell-(j+1)` labelled `shared`
(`backend/parser.py` lines 78-87). -/
def graphEdges (parse : String → Option PyModule) (cells : List String) :
    List GEdge :=
  let ds := defsByCell parse cells
  let us := usesByCell parse cells
  let n := (filteredCells cells).length
  (List.range n).flatMap (fun i =>
    (List.range' (i + 1) (n - (i + 1))).filterMap (fun j =>
      let shared := sharedNames ds us i j
      if shared = [] then none
      else some ⟨cellId (i + 1), cellId (j + 1), shared⟩))

/-- The node list of `build_graph`: one node per retained cell
(`backend/parser.py` lines 89-96). -/
def graphNodes (cells : List String) : List GNode :=
  (List.range (filteredCells cells).length).map (fun i =>
    ⟨cellId (i + 1), cellLabel (i + 1), (filteredCells cells).getD i ""⟩)

/-- `build_graph` (`backend/parser.py`): filters blank cells, analyzes each
retained cell, emits an edge `i → j` for every ordered pair `i < j` whose
`shared` list is non-empty, and one node per retained cell. -/
def build_graph (parse : String → Option PyModule) (cells : List String) :
    List GNode × List GEdge :=
  (graphNodes cells, graphEdges parse cells)

/-! ### `_topo_sort` (`backend/main.py` lines 53-113) -/

/-- Input node record of `/api/run_graph` (`{id, code, ...}`); the fields
the backend reads. -/
structure NodeIn where
  id : String
  code : String
deriving Repr, DecidableEq

/-- Input edge record (`{source, target}`). A record whose `source` or
`target` key is missing behaves, in every test the code performs, exactly
like one whose value is a string that is not a node id, so both fields are
modelled as strings. -/
structure EdgeIn where
  source : String
  target : String
deriving Repr, DecidableEq

/-- Insert-or-update on an association list, preserving the position of an
existing key and appending a new key at the end — the Python `dict`
comprehension's key semantics. -/
def dictInsert (m : List (String × NodeIn)) (k : String) (v : NodeIn) :
    List (String × NodeIn) :=
  if m.any (fun p => p.1 = k) then
    m.map (fun p => if p.1 = k then (k, v) else p)
  else m ++ [(k, v)]

/-- `node_map = {n["id"]: n for n in nodes if (n.get("code") or "").strip()}`:
nodes with blank code are skipped; for duplicate ids the last retained
occurrence wins. -/
def buildNodeMap (nodes : List NodeIn) : List (String × NodeIn) :=
  nodes.foldl (fun m n => if isBlankCode n.code then m else dictInsert m n.id n) []

/-- Key lookup in the association-list model of a Python dict. -/
def dictFind (m : List (String × NodeIn)) (k : String) : Option NodeIn :=
  (m.find? (fun p => p.1 = k)).map (fun p => p.2)

/-- One step of the `for e in edges` loop building `adj` and `indeg`:
an edge is kept only when both endpoints are node-map keys and it is not a
self-edge; a duplicate of an already-recorded directed pair is ignored
(`if t not in adj[s]`), otherwise the target is appended to the source's
adjacency and the target's in-degree is incremented. -/
def addEdge (ids : List String) (st : (String → List String) × (String → Int))
    (e : EdgeIn) : (String → List String) × (String → Int) :=
  if e.source ∈ ids ∧ e.target ∈ ids ∧ e.source ≠ e.target then
    if e.target ∈ st.1 e.source then st
    else (Function.update st.1 e.source (st.1 e.source ++ [e.target]),
          Function.update st.2 e.target (st.2 e.target + 1))
  else st

/-- Directed adjacency and in-degree maps built from the edge list
(`backend/main.py` lines 63-71). Both Python dicts are initialised with
exactly the keys in `ids` (value `set()` resp. `0`); they are modelled as
total functions with those initial values, and the code never reads a key
outside `ids`. -/
def buildAdjIndeg (ids : List String) (edges : List EdgeIn) :
    (String → List String) × (String → Int) :=
  edges.foldl (addEdge ids) (fun _ => [], fun _ => 0)

/-- `set.add`: append if not present (our insertion-order model of a
Python set). -/
def addOnce (l : List String) (v : String) : List String :=
  if v ∈ l then l else l ++ [v]

/-- One step of symmetrisation: `undirected[s].add(t);
undirected[t].add(s)`. -/
def undAddPair (und : String → List String) (s t : String) :
    String → List String :=
  let und1 := Function.update und s (addOnce (und s) t)
  Function.update und1 t (addOnce (und1 t) s)

/-- The symmetrised (`undirected`) adjacency (`backend/main.py` lines
73-78): for each `s` in `ids` and `t` in `adj[s]`, add `t` to
`undirected[s]` and `s` to `undirected[t]`. -/
def buildUnd (ids : List String) (adj : String → List String) :
    String → List String :=
  ids.foldl (fun und s => (adj s).foldl (fun und t => undAddPair und s t) und)
    (fun _ => [])

/-- One push attempt of the component walk: `if v not in seen:
seen.add(v); q.append(v)`. `seen` is represented by its complement
`unseen` inside the not-yet-assigned node ids, so the test `v not in seen`
becomes `v ∈ unseen` (the walk only ever meets ids, see
`buildUnd`-range lemmas below). -/
def pushStep (st : List String × List String) (v : String) :
    List String × List String :=
  if v ∈ st.2 then (st.1 ++ [v], st.2.erase v) else st

/-- The `while q` loop collecting one weakly-connected component
(`backend/main.py` lines 85-91). Python's `q.pop()` removes the *last*
element. Fuel-indexed; each iteration strictly decreases
`q.length + unseen.length`, so the fuel branch is unreachable for the
fuel used by `walk`. -/
def walkF (und : String → List String) :
    ℕ → List String → List String → List String → List String × List String
  | _, [], unseen, comp => (comp, unseen)
  | 0, _ :: _, unseen, comp => (comp, unseen)
  | fuel + 1, x :: xs, unseen, comp =>
    let u := (x :: xs).getLast (by simp)
    let q0 := (x :: xs).dropLast
    let st := (und u).foldl pushStep (q0, unseen)
    walkF und fuel st.1 st.2 (comp ++ [u])

/-- The component walk with adequate fuel. -/
def walk (und : String → List String) (q unseen comp : List String) :
    List String × List String :=
  walkF und (q.length + unseen.length) q unseen comp

/-- The `for i in ids` loop of component discovery (`backend/main.py`
lines 80-92), returning the component list and the final complement of
`seen`. -/
def compsGo (und : String → List String) :
    List String → List String → List (List String) × List String
  | [], unseen => ([], unseen)
  | i :: rest, unseen =>
    if i ∈ unseen then
      let w := walk und [i] (unseen.erase i) []
      let r := compsGo und rest w.2
      (w.1 :: r.1, r.2)
    else compsGo und rest unseen

/-- One step of Kahn's inner `for v in adj_local[u]` loop:
`indeg_local[v] -= 1; if indeg_local[v] == 0: q.append(v)`. -/
def kahnVisit (st : List String × (String → Int)) (v : String) :
    List String × (String → Int) :=
  let m' := Function.update st.2 v (st.2 v - 1)
  if m' v = 0 then (st.1 ++ [v], m') else (st.1, m')

/-- Count of component members with a (strictly) positive in-degree
value; together with the queue length this is the decreasing measure of
Kahn's `while q` loop. -/
def posCnt (comp : List String) (m : String → Int) : ℕ :=
  (comp.filter (fun k => decide (0 < m k))).length

/-- Kahn's `while q` loop (`backend/main.py` lines 101-107). Python's
`q.pop(0)` removes the *first* element (first-in-first-out). The local
adjacency `adj_local[u] = {v for v in adj[u] if v in comp}` is computed at
its use site. Fuel-indexed; each iteration strictly decreases
`q.length + posCnt comp m`. -/
def kahnF (adj : String → List String) (comp : List String) :
    ℕ → List String → List String → (String → Int) → List String
  | _, [], order, _ => order
  | 0, _ :: _, order, _ => order
  | fuel + 1, u :: rest, order, m =>
    let st := ((adj u).filter (fun v => decide (v ∈ comp))).foldl kahnVisit (rest, m)
    kahnF adj comp fuel st.1 (order ++ [u]) st.2

/-- The seed queue of Kahn's algorithm:
`q = [k for k in comp if indeg_local[k] == 0]`. -/
def kahnSeedQueue (indeg : String → Int) (comp : List String) : List String :=
  comp.filter (fun k => decide (indeg k = 0))

/-- The part of the order emitted by the `while q` loop itself. -/
def kahnOrder (adj : String → List String) (indeg : String → Int)
    (comp : List String) : List String :=
  kahnF adj comp ((kahnSeedQueue indeg comp).length + posCnt comp indeg)
    (kahnSeedQueue indeg comp) [] indeg

/-- Kahn's algorithm on one component: seed the queue with the in-degree-0
members in component order, run the loop, then append the still-unordered
members in component order (`backend/main.py` lines 94-110, the
cycle-tolerant fallback). -/
def topoComp (adj : String → List String) (indeg : String → Int)
    (comp : List String) : List String :=
  kahnOrder adj indeg comp ++
    comp.filter (fun k => decide (k ∉ kahnOrder adj indeg comp))

/-- The node-map keys, in insertion order (`ids = list(node_map.keys())`). -/
def tsIds (nodes : List NodeIn) : List String :=
  (buildNodeMap nodes).map (fun p => p.1)

/-- The directed adjacency of `_topo_sort` for the given input. -/
def tsAdj (nodes : List NodeIn) (edges : List EdgeIn) : String → List String :=
  (buildAdjIndeg (tsIds nodes) edges).1

/-- The in-degree map of `_topo_sort` for the given input. -/
def tsIndeg (nodes : List NodeIn) (edges : List EdgeIn) : String → Int :=
  (buildAdjIndeg (tsIds nodes) edges).2

/-- The undirected adjacency of `_topo_sort` for the given input. -/
def tsUnd (nodes : List NodeIn) (edges : List EdgeIn) : String → List String :=
  buildUnd (tsIds nodes) (tsAdj nodes edges)

/-- The weakly-connected components of `_topo_sort` for the given input,
in discovery order. -/
def tsComponents (nodes : List NodeIn) (edges : List EdgeIn) : List (List String) :=
  (compsGo (tsUnd nodes edges) (tsIds nodes) (tsIds nodes)).1

/-- The edge sublist attached to one component:
`[e for e in edges if e.get("source") in comp and e.get("target") in comp]`. -/
def compEdges (edges : List EdgeIn) (comp : List String) : List EdgeIn :=
  edges.filter (fun e => decide (e.source ∈ comp) && decide (e.target ∈ comp))

/-- `_topo_sort` (`backend/main.py` lines 53-113): the ordered components
(each with its internal edge list) and the node map. -/
def topoSort (nodes : List NodeIn) (edges : List EdgeIn) :
    List (List String × List EdgeIn) × List (String × NodeIn) :=
  ((tsComponents nodes edges).map (fun comp =>
      (topoComp (tsAdj nodes edges) (tsIndeg nodes edges) comp,
       compEdges edges comp)),
   buildNodeMap nodes)

/-! ### The execution engine (`_run_cell`, `backend/main.py` lines 33-51)

The CPython interpreter (`compile`/`exec`/`eval`, `repr`, `traceback`) is
an external collaborator; it is modelled as an abstract `Runtime` whose
operations report the environment reached, the text written to the
redirected stdout, and — on a fault — the fault's formatted trace text. -/

/-- Result of `exec`uting a statement sequence: either the updated
environment with the output written so far, or a fault together with the
output written before the fault and the fault's trace text
(`traceback.format_exc()`). -/
inductive ExecR (Env : Type) where
  | ok (env : Env) (out : String)
  | fault (out : String) (trace : String)

/-- Result of `eval`uating one expression: on success also the value, with
`none` standing for Python `None` (the no-value marker). -/
inductive EvalR (V : Type) (Env : Type) where
  | ok (env : Env) (out : String) (value : Option V)
  | fault (out : String) (trace : String)

/-- The abstract Python runtime hosting the cells: parser, statement
executor, expression evaluator, `repr`, and the fresh empty namespace
(`env: dict = {}`). `parseErrTrace` is the `traceback.format_exc()` text
of the `SyntaxError` raised when parsing fails. -/
structure Runtime (V : Type) (Env : Type) where
  parse : String → Option PyModule
  parseErrTrace : String → String
  execStmts : List StmtA → Env → ExecR Env
  evalExpr : ExprA → Env → EvalR V Env
  reprV : V → String
  emptyEnv : Env

/-- `_run_cell` (`backend/main.py` lines 33-51): parse the cell; if the
last top-level statement is a bare expression (`ast.Expr`), execute the
statements before it, then evaluate that expression against the same
namespace and echo `repr(value)` (plus the newline `print` appends) unless
the value is `None`; otherwise execute the whole body. Any fault is caught
and re-signalled as `RuntimeError(buf.getvalue())`, i.e. the output
captured so far followed by the fault's trace text; a parse failure is
caught by the same handler with an empty buffer. The `.error` result
models the raised `RuntimeError`, `.ok` the returned `buf.getvalue()`
together with the (mutated) namespace. -/
def runCell {V Env : Type} (rt : Runtime V Env) (code : String) (env : Env) :
    Except String (Env × String) :=
  match rt.parse code with
  | none => .error (rt.parseErrTrace code)
  | some m =>
    match m.body.getLast? with
    | some (.exprStmt e) =>
      match rt.execStmts m.body.dropLast env with
      | .fault out tr => .error (out ++ tr)
      | .ok env1 out1 =>
        match rt.evalExpr e env1 with
        | .fault out2 tr => .error (out1 ++ (out2 ++ tr))
        | .ok env2 out2 value =>
          match value with
          | some v => .ok (env2, out1 ++ (out2 ++ (rt.reprV v ++ "\n")))
          | none => .ok (env2, out1 ++ out2)
    | _ =>
      match rt.execStmts m.body env with
      | .fault out tr => .error (out ++ tr)
      | .ok env' out => .ok (env', out)

/-! ### `run_graph` (`backend/main.py` lines 151-176) -/

/-- One entry of the success log: `{"node": nid, "component": comp_index,
"stdout": out}`. -/
structure LogEntry where
  node : String
  component : ℕ
  stdout : String
deriving Repr, DecidableEq

/-- The JSON result of `/api/run_graph`: `{ok: true, logs}` or
`{ok: false, failed_node, component, stdout, logs}`. -/
inductive RunResult where
  | success (logs : List LogEntry)
  | failure (failed_node : String) (component : ℕ) (stdout : String)
      (logs : List LogEntry)
deriving Repr, DecidableEq

/-- The code run for a node id: `node_map[nid].get("code") or ""`
(`nid` is always a `node_map` key when called from `run_graph`). -/
def codeOf (node_map : List (String × NodeIn)) (nid : String) : String :=
  match dictFind node_map nid with
  | some n => n.code
  | none => ""

/-- The `for nid in order` loop of `run_graph`: run each cell against the
component's shared namespace; on a fault return the failure result built
from the accumulated logs, otherwise append one log entry per cell. -/
def runOrder {V Env : Type} (rt : Runtime V Env)
    (node_map : List (String × NodeIn)) (cidx : ℕ) :
    List String → Env → List LogEntry → RunResult ⊕ (Env × List LogEntry)
  | [], env, logs => .inr (env, logs)
  | nid :: rest, env, logs =>
    match runCell rt (codeOf node_map nid) env with
    | .error t => .inl (.failure nid cidx t logs)
    | .ok (env', out) =>
      runOrder rt node_map cidx rest env' (logs ++ [⟨nid, cidx, out⟩])

/-- The `for order, _comp_edges in ordered_components` loop of
`run_graph`: each component gets a fresh empty namespace and a 1-based
component index; the first fault aborts the whole run. -/
def runComps {V Env : Type} (rt : Runtime V Env)
    (node_map : List (String × NodeIn)) :
    List (List String × List EdgeIn) → ℕ → List LogEntry → RunResult
  | [], _, logs => .success logs
  | (order, _) :: restC, cidx, logs =>
    match runOrder rt node_map (cidx + 1) order rt.emptyEnv logs with
    | .inl fail => fail
    | .inr (_, logs') => runComps rt node_map restC (cidx + 1) logs'

/-- `run_graph` (`backend/main.py` lines 151-176): schedule with
`_topo_sort`, then run the components in discovery order. -/
def run_graph {V Env : Type} (rt : Runtime V Env)
    (nodes : List NodeIn) (edges : List EdgeIn) : RunResult :=
  let ts := topoSort nodes edges
  runComps rt ts.2 ts.1 0 []

/-! ### Injectivity of the generated node ids -/

/-- With adequate fuel, `decDigitsRev` computes `Nat.digits 10`. -/
theorem decDigitsRev_eq_digits : ∀ fuel n : ℕ, n ≤ fuel →
    decDigitsRev fuel n = Nat.digits 10 n
  | 0, n, h => by
    interval_cases n
    simp [decDigitsRev]
  | fuel + 1, n, h => by
    by_cases hn : n = 0
    · simp [decDigitsRev, hn]
    · have hlt : n / 10 < n := Nat.div_lt_self (Nat.pos_of_ne_zero hn) (by norm_num)
      have ih := decDigitsRev_eq_digits fuel (n / 10) (by omega)
      rw [decDigitsRev, if_neg hn, ih,
        Nat.digits_def' (by norm_num : (1 : ℕ) < 10) (Nat.pos_of_ne_zero hn)]

/-- `decDigitChar` is injective below 10. -/
theorem decDigitChar_inj : ∀ a : ℕ, a < 10 → ∀ b : ℕ, b < 10 →
    decDigitChar a = decDigitChar b → a = b := by decide

/-- Mapping `decDigitChar` over lists of digits is injective. -/
theorem map_decDigitChar_inj : ∀ l₁ l₂ : List ℕ, (∀ d ∈ l₁, d < 10) →
    (∀ d ∈ l₂, d < 10) → l₁.map decDigitChar = l₂.map decDigitChar → l₁ = l₂
  | [], [], _, _, _ => rfl
  | [], _ :: _, _, _, h => by simp at h
  | _ :: _, [], _, _, h => by simp at h
  | a :: as', b :: bs, h₁, h₂, h => by
    simp only [List.map_cons, List.cons.injEq] at h
    rw [decDigitChar_inj a (h₁ a (by simp)) b (h₂ b (by simp)) h.1,
      map_decDigitChar_inj as' bs (fun d hd => h₁ d (by simp [hd]))
        (fun d hd => h₂ d (by simp [hd])) h.2]

/-- `natStr` (the model of Python `str` on naturals) is injective. -/
theorem natStr_inj {m n : ℕ} (h : natStr m = natStr n) : m = n := by
  have digitsLt : ∀ k : ℕ, ∀ d ∈ Nat.digits 10 k, d < 10 := fun k d hd =>
    Nat.digits_lt_base (by norm_num) hd
  have key : ∀ k : ℕ, k ≠ 0 →
      natStr k = ((Nat.digits 10 k).reverse.map decDigitChar).asString := by
    intro k hk
    rw [natStr, if_neg hk, decDigitsRev_eq_digits k k le_rfl]
  by_cases hm : m = 0 <;> by_cases hn : n = 0
  · omega
  · exfalso
    rw [hm, (rfl : natStr 0 = "0"), key n hn] at h
    have hdata := congrArg String.data h
    simp only [List.asString] at hdata
    have : ['0'] = (Nat.digits 10 n).reverse.map decDigitChar := hdata
    have hlen : (Nat.digits 10 n).length = 1 := by
      have := congrArg List.length this
      simpa using this.symm
    obtain ⟨d, hd⟩ := List.length_eq_one.mp hlen
    rw [hd] at this
    simp only [List.reverse_cons, List.reverse_nil, List.nil_append,
      List.map_cons, List.map_nil, List.cons.injEq] at this
    have hd10 : d < 10 := digitsLt n d (by simp [hd])
    have : d = 0 := (decDigitChar_inj 0 (by norm_num) d hd10 this.1).symm
    have : n = 0 := by
      have := Nat.ofDigits_digits 10 n
      rw [hd] at this
      simp_all [Nat.ofDigits]
    exact hn this
  · exfalso
    rw [hn, (rfl : natStr 0 = "0"), key m hm] at h
    have hdata := congrArg String.data h.symm
    simp only [List.asString] at hdata
    have : ['0'] = (Nat.digits 10 m).reverse.map decDigitChar := hdata
    have hlen : (Nat.digits 10 m).length = 1 := by
      have := congrArg List.length this
      simpa using this.symm
    obtain ⟨d, hd⟩ := List.length_eq_one.mp hlen
    rw [hd] at this
    simp only [List.reverse_cons, List.reverse_nil, List.nil_append,
      List.map_cons, List.map_nil, List.cons.injEq] at this
    have hd10 : d < 10 := digitsLt m d (by simp [hd])
    have : d = 0 := (decDigitChar_inj 0 (by norm_num) d hd10 this.1).symm
    have : m = 0 := by
      have := Nat.ofDigits_digits 10 m
      rw [hd] at this
      simp_all [Nat.ofDigits]
    exact hm this
  · rw [key m hm, key n hn] at h
    have hdata := congrArg String.data h
    simp only [List.asString] at hdata
    have hrev := map_decDigitChar_inj _ _
      (fun d hd => digitsLt m d (List.mem_reverse.mp hd))
      (fun d hd => digitsLt n d (List.mem_reverse.mp hd)) hdata
    have hdig : Nat.digits 10 m = Nat.digits 10 n :=
      List.reverse_injective hrev
    have := Nat.ofDigits_digits 10 m
    rw [hdig, Nat.ofDigits_digits] at this
    omega

/-- The generated node ids `cell-1`, `cell-2`, … are pairwise distinct. -/
theorem cellId_inj {m n : ℕ} (h : cellId m = cellId n) : m = n := by
  have hdata := congrArg String.data h
  simp only [cellId, String.data_append] at hdata
  have := List.append_cancel_left hdata
  exact natStr_inj (by cases hns : natStr m <;> cases hnt : natStr n <;>
    simp_all [String.ext_iff])

/-! ### Association-list lookup lemmas for the node map -/

/-- Inserting a key a head entry does not carry walks past that entry. -/
theorem dictInsert_cons_ne (p : String × NodeIn) (rest : List (String × NodeIn))
    (k : String) (v : NodeIn) (hp : p.1 ≠ k) :
    dictInsert (p :: rest) k v = p :: dictInsert rest k v := by
  unfold dictInsert
  have hd : (decide (p.1 = k)) = false := by simp [hp]
  simp only [List.any_cons, hd, Bool.false_or]
  by_cases hmem : rest.any (fun q => q.1 = k)
  · simp [hmem, hp]
  · simp [hmem]

/-- Updating key `k` leaves lookups of other keys unchanged. -/
theorem dictFind_map_ne (rest : List (String × NodeIn)) (k : String)
    (v : NodeIn) (id : String) (h : id ≠ k) :
    dictFind (rest.map (fun q => if q.1 = k then (k, v) else q)) id =
      dictFind rest id := by
  induction rest with
  | nil => rfl
  | cons q rest ih =>
    by_cases hq : q.1 = k
    · have h1 : (decide (k = id)) = false := by simp [Ne.symm h]
      have h2 : (decide (q.1 = id)) = false := by
        simp [hq, Ne.symm h]
      simp [dictFind, List.find?_cons, hq, h1, h2, dictFind] at ih ⊢
      exact ih
    · simp only [List.map_cons, if_neg hq, dictFind, List.find?_cons] at ih ⊢
      cases hqid : (decide (q.1 = id)) <;> simp_all [dictFind]

/-- `dictFind` after `dictInsert`: the inserted key maps to the new value,
all other keys are unaffected — Python's `d[k] = v`. -/
theorem dictFind_dictInsert (m : List (String × NodeIn)) (k : String)
    (v : NodeIn) (id : String) :
    dictFind (dictInsert m k v) id = if id = k then some v else dictFind m id := by
  induction m with
  | nil =>
    by_cases hik : id = k
    · simp [dictInsert, dictFind, List.find?, hik]
    · have h1 : (decide (k = id)) = false := by simp [Ne.symm hik]
      simp [dictInsert, dictFind, List.find?, hik, h1]
  | cons p rest ih =>
    by_cases hp : p.1 = k
    · have hins : dictInsert (p :: rest) k v =
          (k, v) :: rest.map (fun q => if q.1 = k then (k, v) else q) := by
        unfold dictInsert
        simp [List.any_cons, hp]
      rw [hins]
      by_cases hik : id = k
      · simp [dictFind, List.find?_cons, hik]
      · have h1 : (decide (k = id)) = false := by simp [Ne.symm hik]
        have h2 : (decide (p.1 = id)) = false := by
          simp [hp, Ne.symm hik]
        have hmap := dictFind_map_ne rest k v id hik
        simp only [dictFind, List.find?_cons, h1, h2, if_neg hik] at hmap ⊢
        exact hmap
    · rw [dictInsert_cons_ne p rest k v hp]
      by_cases hpid : p.1 = id
      · have hik : id ≠ k := fun hh => hp (hpid.trans hh)
        simp [dictFind, List.find?_cons, hpid, hik]
      · have h2 : (decide (p.1 = id)) = false := by simp [hpid]
        simp only [dictFind, List.find?_cons, h2] at ih ⊢
        exact ih

/-- Generalised `node_map` lookup: folding the comprehension over `nodes`
on top of an accumulator `m`, the lookup of `id` is the last retained
occurrence with that id, falling back to `m`. -/
theorem buildNodeMap_go_find : ∀ (nodes : List NodeIn)
    (m : List (String × NodeIn)) (id : String),
    dictFind (nodes.foldl
      (fun m n => if isBlankCode n.code then m else dictInsert m n.id n) m) id =
    ((nodes.filter (fun n => decide (n.id = id) && !isBlankCode n.code)).getLast?).or
      (dictFind m id)
  | [], m, id => by simp
  | n :: rest, m, id => by
    rw [List.foldl_cons, buildNodeMap_go_find rest _ id]
    by_cases hb : isBlankCode n.code
    · simp [hb]
    · rw [if_neg hb]
      by_cases hid : n.id = id
      · have hfe : (n :: rest).filter
            (fun n => decide (n.id = id) && !isBlankCode n.code) =
            n :: rest.filter (fun n => decide (n.id = id) && !isBlankCode n.code) := by
          simp [List.filter_cons, hid, hb]
        rw [hfe, dictFind_dictInsert]
        rw [if_pos hid.symm]
        cases hrest : rest.filter
            (fun n => decide (n.id = id) && !isBlankCode n.code) with
        | nil => simp
        | cons x xs =>
          rcases hl : (x :: xs).getLast? with _ | y
          · simp at hl
          · simp [Option.or, hl]
      · have hfe : (n :: rest).filter
            (fun n => decide (n.id = id) && !isBlankCode n.code) =
            rest.filter (fun n => decide (n.id = id) && !isBlankCode n.code) := by
          simp [List.filter_cons, hid]
        rw [hfe, dictFind_dictInsert, if_neg (Ne.symm hid)]

/-- C10: the node map of a graph-driven run never rejects duplicate ids:
looking up any id yields the *last* occurrence in the node list whose code
is non-blank (earlier duplicates and blank occurrences are silently
discarded), and that occurrence's code is, via `codeOf`, the code the
scheduler hands to the execution engine. -/
theorem claim_C10 (nodes : List NodeIn) (id : String) :
    dictFind (buildNodeMap nodes) id =
      (nodes.filter (fun n => decide (n.id = id) && !isBlankCode n.code)).getLast? ∧
    codeOf (buildNodeMap nodes) id =
      (match (nodes.filter
          (fun n => decide (n.id = id) && !isBlankCode n.code)).getLast? with
        | some n => n.code
        | none => "") := by
  have h := buildNodeMap_go_find nodes [] id
  have hnil : dictFind ([] : List (String × NodeIn)) id = none := rfl
  rw [hnil] at h
  have h1 : dictFind (buildNodeMap nodes) id =
      (nodes.filter (fun n => decide (n.id = id) && !isBlankCode n.code)).getLast? := by
    rw [buildNodeMap, h]
    cases (nodes.filter (fun n => decide (n.id = id) && !isBlankCode n.code)).getLast? <;>
      simp [Option.or]
  refine ⟨h1, ?_⟩
  rw [codeOf, h1]

/-- C4: the name analysis is flow-insensitive. Whenever the cell parses,
the analyzer returns exactly the whole-cell `defs` and `uses - defs`
(computed over the entire statement list at once, with no notion of
program order), so a name defined anywhere in the cell is never reported
among the unresolved uses — also when a read of it lexically precedes the
definition. -/
theorem claim_C4 (parse : String → Option PyModule) (code : String)
    (m : PyModule) (h : parse code = some m) :
    analyze_cell parse code = (moduleDefs m, moduleUses m \ moduleDefs m) ∧
    ∀ x ∈ moduleDefs m, x ∉ (analyze_cell parse code).2 := by
  constructor
  · rw [analyze_cell, h]
  · intro x hx
    rw [analyze_cell, h]
    simp [hx]

/-- Parser used by the C4 witness: the cell reads `x` (lexically first)
and then assigns it, as in `print(x); x = 1`. -/
def witParseC4 : String → Option PyModule :=
  fun _ => some ⟨[.exprStmt (.other [.name "x" true]),
                  .assign [.name "x" false] (.other [])]⟩

/-- Witness for C4 at a concrete cell: the read of `x` precedes the
definition, yet `x` is defined (`defs = {x}`) and the unresolved uses are
empty. -/
theorem claim_C4_witness :
    witParseC4 "print(x); x = 1" =
      some ⟨[.exprStmt (.other [.name "x" true]),
             .assign [.name "x" false] (.other [])]⟩ ∧
    (analyze_cell witParseC4 "print(x); x = 1" =
        (moduleDefs ⟨[.exprStmt (.other [.name "x" true]),
                      .assign [.name "x" false] (.other [])]⟩,
         moduleUses ⟨[.exprStmt (.other [.name "x" true]),
                      .assign [.name "x" false] (.other [])]⟩ \
           moduleDefs ⟨[.exprStmt (.other [.name "x" true]),
                        .assign [.name "x" false] (.other [])]⟩) ∧
      ∀ x ∈ moduleDefs ⟨[.exprStmt (.other [.name "x" true]),
                         .assign [.name "x" false] (.other [])]⟩,
        x ∉ (analyze_cell witParseC4 "print(x); x = 1").2) :=
  ⟨rfl, claim_C4 witParseC4 "print(x); x = 1" _ rfl⟩

/-- C9: per-cell name analysis never raises: on a parse failure it returns
two empty sets, and graph construction still completes for the whole
batch — the built graph has exactly one node per non-blank cell no matter
which cells are malformed. -/
theorem claim_C9 (parse : String → Option PyModule) (cells : List String)
    (code : String) (h : parse code = none) :
    analyze_cell parse code = (∅, ∅) ∧
    (build_graph parse cells).1.length =
      (cells.filter (fun c => !isBlankCode c)).length := by
  constructor
  · rw [analyze_cell, h]
  · simp [build_graph, graphNodes, filteredCells]

/-- Witness for C9: a parser that fails on every input, a two-cell batch
with a blank third entry; the analysis degrades to empty sets and the
graph still has two nodes. -/
theorem claim_C9_witness :
    (fun (_ : String) => (none : Option PyModule)) "def f(:" = none ∧
    (analyze_cell (fun _ => none) "def f(:" = (∅, ∅) ∧
      (build_graph (fun _ => none) ["def f(:", "x = 1", "  "]).1.length =
        (["def f(:", "x = 1", "  "].filter (fun c => !isBlankCode c)).length) :=
  ⟨rfl, claim_C9 (fun _ => none) ["def f(:", "x = 1", "  "] "def f(:" rfl⟩

/-! ### Properties of the sorted label lists -/

/-- `sortFinset` produces a list sorted by the string order. -/
theorem sortFinset_sorted (s : Finset String) : List.Sorted strRel (sortFinset s) := by
  rcases s with ⟨ms, nd⟩
  induction ms using Quot.inductionOn with
  | _ l => exact l.sorted_insertionSort strRel

/-- `sortFinset` enumerates exactly the set's elements. -/
theorem mem_sortFinset (s : Finset String) (x : String) :
    x ∈ sortFinset s ↔ x ∈ s := by
  rcases s with ⟨ms, nd⟩
  induction ms using Quot.inductionOn with
  | _ l =>
    show x ∈ sortL l ↔ _
    rw [sortL, List.Perm.mem_iff (l.perm_insertionSort strRel)]
    simp [Finset.mem_mk]

/-- `sortFinset` has no duplicates. -/
theorem sortFinset_nodup (s : Finset String) : (sortFinset s).Nodup := by
  rcases s with ⟨ms, nd⟩
  induction ms using Quot.inductionOn with
  | _ l =>
    show (sortL l).Nodup
    rw [sortL, List.Perm.nodup_iff (l.perm_insertionSort strRel)]
    exact nd

/-- `sortFinset` is empty exactly on the empty set. -/
theorem sortFinset_eq_nil (s : Finset String) : sortFinset s = [] ↔ s = ∅ := by
  constructor
  · intro h
    ext x
    have := mem_sortFinset s x
    rw [h] at this
    simpa using this.symm
  · intro h
    subst h
    rfl

/-- Membership in the built edge list, characterised by the generating
pair of 0-based filtered positions. -/
theorem mem_graphEdges (parse : String → Option PyModule) (cells : List String)
    (e : GEdge) :
    e ∈ graphEdges parse cells ↔ ∃ i j : ℕ, i < j ∧
      j < (filteredCells cells).length ∧
      sharedNames (defsByCell parse cells) (usesByCell parse cells) i j ≠ [] ∧
      e = ⟨cellId (i + 1), cellId (j + 1),
        sharedNames (defsByCell parse cells) (usesByCell parse cells) i j⟩ := by
  rw [graphEdges]
  simp only [List.mem_flatMap, List.mem_filterMap, List.mem_range, List.mem_range']
  constructor
  · rintro ⟨i, hi, j, ⟨t, ht, hj⟩, hsome⟩
    by_cases hsh : sharedNames (defsByCell parse cells) (usesByCell parse cells) i j = []
    · rw [if_pos hsh] at hsome
      exact absurd hsome (by simp)
    · rw [if_neg hsh] at hsome
      refine ⟨i, j, by omega, by omega, hsh, ?_⟩
      exact (Option.some.injEq _ _ ▸ hsome).symm
  · rintro ⟨i, j, hij, hjn, hsh, he⟩
    refine ⟨i, by omega, j, ⟨j - (i + 1), by omega, by omega⟩, ?_⟩
    rw [if_neg hsh, he]

/-- C1: characterisation of the auto-built dependency graph's edges. Every
edge is generated by a pair of filtered positions `i < j` with a non-empty
`defs(i) ∩ unresolved_uses(j)`, carries exactly the sorted duplicate-free
enumeration of that intersection as its labels, and every such pair
produces its edge; node ids are pairwise distinct, and consequently no
edge ever points from a later cell to an earlier (or the same) one. -/
theorem claim_C1 (parse : String → Option PyModule) (cells : List String) :
    (∀ e ∈ (build_graph parse cells).2, ∃ i j : ℕ, i < j ∧
      j < (filteredCells cells).length ∧
      e = ⟨cellId (i + 1), cellId (j + 1),
        sharedNames (defsByCell parse cells) (usesByCell parse cells) i j⟩ ∧
      ((defsByCell parse cells).getD i ∅ ∩
        (usesByCell parse cells).getD j ∅).Nonempty ∧
      List.Sorted strRel e.labels ∧ e.labels.Nodup ∧
      (∀ x, x ∈ e.labels ↔ x ∈ (defsByCell parse cells).getD i ∅ ∩
        (usesByCell parse cells).getD j ∅)) ∧
    (∀ i j : ℕ, i < j → j < (filteredCells cells).length →
      ((defsByCell parse cells).getD i ∅ ∩
        (usesByCell parse cells).getD j ∅).Nonempty →
      (⟨cellId (i + 1), cellId (j + 1),
        sharedNames (defsByCell parse cells) (usesByCell parse cells) i j⟩ : GEdge)
        ∈ (build_graph parse cells).2) ∧
    (∀ i j : ℕ, cellId i = cellId j → i = j) ∧
    (∀ e ∈ (build_graph parse cells).2, ∀ i j : ℕ,
      e.source = cellId (i + 1) → e.target = cellId (j + 1) → i < j) := by
  have hne : ∀ i j : ℕ,
      (sharedNames (defsByCell parse cells) (usesByCell parse cells) i j ≠ [] ↔
        ((defsByCell parse cells).getD i ∅ ∩
          (usesByCell parse cells).getD j ∅).Nonempty) := by
    intro i j
    rw [sharedNames, Finset.nonempty_iff_ne_empty, not_iff_not, sortFinset_eq_nil]
  have hsound : ∀ e ∈ (build_graph parse cells).2, ∃ i j : ℕ, i < j ∧
      j < (filteredCells cells).length ∧
      e = ⟨cellId (i + 1), cellId (j + 1),
        sharedNames (defsByCell parse cells) (usesByCell parse cells) i j⟩ ∧
      ((defsByCell parse cells).getD i ∅ ∩
        (usesByCell parse cells).getD j ∅).Nonempty ∧
      List.Sorted strRel e.labels ∧ e.labels.Nodup ∧
      (∀ x, x ∈ e.labels ↔ x ∈ (defsByCell parse cells).getD i ∅ ∩
        (usesByCell parse cells).getD j ∅) := by
    intro e he
    rw [build_graph] at he
    obtain ⟨i, j, hij, hjn, hsh, hee⟩ := (mem_graphEdges parse cells e).mp he
    refine ⟨i, j, hij, hjn, hee, (hne i j).mp hsh, ?_, ?_, ?_⟩
    · rw [hee]; exact sortFinset_sorted _
    · rw [hee]; exact sortFinset_nodup _
    · intro x; rw [hee]; exact mem_sortFinset _ x
  refine ⟨hsound, ?_, ?_, ?_⟩
  · intro i j hij hjn hinter
    rw [build_graph]
    exact (mem_graphEdges parse cells _).mpr
      ⟨i, j, hij, hjn, (hne i j).mpr hinter, rfl⟩
  · intro i j h
    exact cellId_inj h
  · intro e he i j hs ht
    obtain ⟨i', j', hij', _, hee, _⟩ := hsound e he
    rw [hee] at hs ht
    have hi : i' + 1 = i + 1 := cellId_inj hs
    have hj : j' + 1 = j + 1 := cellId_inj ht
    omega

/-- Parser used by the C1 witness: `x = 1` defines `x`; the cell `x`
reads it. -/
def witParseC1 : String → Option PyModule := fun c =>
  if c = "x = 1" then some ⟨[.assign [.name "x" false] (.other [])]⟩
  else some ⟨[.exprStmt (.name "x" true)]⟩

/-- Witness for C1 on the two-cell batch `["x = 1", "x"]`: positions
`0 < 1` with a non-empty shared set produce the edge
`cell-1 → cell-2`. -/
theorem claim_C1_witness :
    (0 < 1 ∧ 1 < (filteredCells ["x = 1", "x"]).length ∧
      ((defsByCell witParseC1 ["x = 1", "x"]).getD 0 ∅ ∩
        (usesByCell witParseC1 ["x = 1", "x"]).getD 1 ∅).Nonempty) ∧
    (⟨cellId 1, cellId 2,
      sharedNames (defsByCell witParseC1 ["x = 1", "x"])
        (usesByCell witParseC1 ["x = 1", "x"]) 0 1⟩ : GEdge) ∈
      (build_graph witParseC1 ["x = 1", "x"]).2 :=
  ⟨⟨by decide, by decide, ⟨"x", by decide⟩⟩,
    (claim_C1 witParseC1 ["x = 1", "x"]).2.1 0 1 (by decide) (by decide)
      ⟨"x", by decide⟩⟩

/-- C6: notebook-style trailing-expression echo. When the cell parses and
its last top-level statement is a bare expression, the engine executes the
preceding statements against the namespace, then evaluates the final
expression against the namespace those statements produced; the textual
`repr` of the value (plus the newline `print` appends) is added to the
captured output exactly when the value is not `None`. When the last
statement is not a bare expression (or the body is empty), the whole cell
is executed as one statement sequence with no implicit echo. -/
theorem claim_C6 {V Env : Type} (rt : Runtime V Env) (code : String) (env : Env)
    (m : PyModule) (hp : rt.parse code = some m) :
    (∀ e env1 out1 env2 out2 v,
      m.body.getLast? = some (.exprStmt e) →
      rt.execStmts m.body.dropLast env = .ok env1 out1 →
      rt.evalExpr e env1 = .ok env2 out2 (some v) →
      runCell rt code env = .ok (env2, out1 ++ (out2 ++ (rt.reprV v ++ "\n")))) ∧
    (∀ e env1 out1 env2 out2,
      m.body.getLast? = some (.exprStmt e) →
      rt.execStmts m.body.dropLast env = .ok env1 out1 →
      rt.evalExpr e env1 = .ok env2 out2 none →
      runCell rt code env = .ok (env2, out1 ++ out2)) ∧
    ((∀ e, m.body.getLast? ≠ some (.exprStmt e)) →
      ∀ env' out, rt.execStmts m.body env = .ok env' out →
      runCell rt code env = .ok (env', out)) := by
  refine ⟨?_, ?_, ?_⟩
  · intro e env1 out1 env2 out2 v hl hex hev
    simp only [runCell, hp, hl, hex, hev]
  · intro e env1 out1 env2 out2 hl hex hev
    simp only [runCell, hp, hl, hex, hev]
  · intro hne env' out hex
    rcases hl : m.body.getLast? with _ | s
    · simp only [runCell, hp, hl, hex]
    · cases s with
      | exprStmt e => exact absurd hl (hne e)
      | assign ts v => simp only [runCell, hp, hl, hex]
      | annAssign t a v => simp only [runCell, hp, hl, hex]
      | augAssign t v => simp only [runCell, hp, hl, hex]
      | funcDef n es b => simp only [runCell, hp, hl, hex]
      | asyncFuncDef n es b => simp only [runCell, hp, hl, hex]
      | classDef n es b => simp only [runCell, hp, hl, hex]
      | importS ns => simp only [runCell, hp, hl, hex]
      | importFrom mn ns => simp only [runCell, hp, hl, hex]
      | otherStmt es b => simp only [runCell, hp, hl, hex]

/-- Runtime used by the C6 and C8 witnesses. -/
def witRt : Runtime ℕ ℕ where
  parse := fun c =>
    if c = "1/0" then none
    else if c = "y" then some ⟨[.exprStmt (.name "y" true)]⟩
    else some ⟨[.assign [.name "y" false] (.other [])]⟩
  parseErrTrace := fun _ => "SyntaxError: trace"
  execStmts := fun ss env => .ok (env + ss.length) ""
  evalExpr := fun _ env => .ok env "" (some 2)
  reprV := natStr
  emptyEnv := 0

/-- Witness for C6: the cell `"y"` is a bare trailing expression whose
value `2` is echoed as `"2\n"`. -/
theorem claim_C6_witness :
    witRt.parse "y" = some ⟨[.exprStmt (.name "y" true)]⟩ ∧
    (⟨[.exprStmt (.name "y" true)]⟩ : PyModule).body.getLast? =
      some (.exprStmt (.name "y" true)) ∧
    witRt.execStmts ([StmtA.exprStmt (.name "y" true)] : List StmtA).dropLast 5 =
      .ok 5 "" ∧
    witRt.evalExpr (.name "y" true) 5 = .ok 5 "" (some 2) ∧
    runCell witRt "y" 5 = .ok (5, "" ++ ("" ++ (witRt.reprV 2 ++ "\n"))) :=
  ⟨rfl, rfl, rfl, rfl,
    (claim_C6 witRt "y" 5 ⟨[.exprStmt (.name "y" true)]⟩ rfl).1
      (.name "y" true) 5 "" 5 "" 2 rfl rfl rfl⟩

/-- C8: every fault raised while running a cell — parse failure, fault in
the statement prefix, fault in the trailing-expression evaluation, or
fault in a whole-cell execution — is caught and re-signalled as an
execution fault whose text is the output already captured for the cell
followed by the fault's trace text (a parse failure captures no output
first). -/
theorem claim_C8 {V Env : Type} (rt : Runtime V Env) (code : String) (env : Env) :
    (rt.parse code = none →
      runCell rt code env = .error (rt.parseErrTrace code)) ∧
    (∀ m e out tr, rt.parse code = some m →
      m.body.getLast? = some (.exprStmt e) →
      rt.execStmts m.body.dropLast env = .fault out tr →
      runCell rt code env = .error (out ++ tr)) ∧
    (∀ m e env1 out1 out2 tr, rt.parse code = some m →
      m.body.getLast? = some (.exprStmt e) →
      rt.execStmts m.body.dropLast env = .ok env1 out1 →
      rt.evalExpr e env1 = .fault out2 tr →
      runCell rt code env = .error (out1 ++ (out2 ++ tr))) ∧
    (∀ m out tr, rt.parse code = some m →
      (∀ e, m.body.getLast? ≠ some (.exprStmt e)) →
      rt.execStmts m.body env = .fault out tr →
      runCell rt code env = .error (out ++ tr)) := by
  refine ⟨?_, ?_, ?_, ?_⟩
  · intro hp
    simp only [runCell, hp]
  · intro m e out tr hp hl hex
    simp only [runCell, hp, hl, hex]
  · intro m e env1 out1 out2 tr hp hl hex hev
    simp only [runCell, hp, hl, hex, hev]
  · intro m out tr hp hne hex
    rcases hl : m.body.getLast? with _ | s
    · simp only [runCell, hp, hl, hex]
    · cases s with
      | exprStmt e => exact absurd hl (hne e)
      | assign ts v => simp only [runCell, hp, hl, hex]
      | annAssign t a v => simp only [runCell, hp, hl, hex]
      | augAssign t v => simp only [runCell, hp, hl, hex]
      | funcDef n es b => simp only [runCell, hp, hl, hex]
      | asyncFuncDef n es b => simp only [runCell, hp, hl, hex]
      | classDef n es b => simp only [runCell, hp, hl, hex]
      | importS ns => simp only [runCell, hp, hl, hex]
      | importFrom mn ns => simp only [runCell, hp, hl, hex]
      | otherStmt es b => simp only [runCell, hp, hl, hex]

/-- Witness for C8: the cell `"1/0"` fails to parse; the signalled fault
text is the syntax trace (no output was captured first). -/
theorem claim_C8_witness :
    witRt.parse "1/0" = none ∧
    runCell witRt "1/0" 0 = .error (witRt.parseErrTrace "1/0") :=
  ⟨rfl, (claim_C8 witRt "1/0" 0).1 rfl⟩

/-! ### Sequential-success chains, for stating the orchestrator claim -/

/-- Fully successful sequential execution of the node ids `order` against
one namespace: the final namespace and the log entries produced, or
`none` if any cell faults. -/
def execChain {V Env : Type} (rt : Runtime V Env)
    (node_map : List (String × NodeIn)) (cidx : ℕ) :
    List String → Env → Option (Env × List LogEntry)
  | [], env => some (env, [])
  | nid :: rest, env =>
    match runCell rt (codeOf node_map nid) env with
    | .error _ => none
    | .ok (env', out) =>
      match execChain rt node_map cidx rest env' with
      | none => none
      | some (envf, entries) => some (envf, ⟨nid, cidx, out⟩ :: entries)

/-- Fully successful execution of a run of components, starting at
component counter `cidx`: the concatenated log entries, or `none` if any
cell faults. -/
def compsChain {V Env : Type} (rt : Runtime V Env)
    (node_map : List (String × NodeIn)) :
    List (List String × List EdgeIn) → ℕ → Option (List LogEntry)
  | [], _ => some []
  | (order, _) :: rest, cidx =>
    match execChain rt node_map (cidx + 1) order rt.emptyEnv with
    | none => none
    | some (_, entries) =>
      match compsChain rt node_map rest (cidx + 1) with
      | none => none
      | some more => some (entries ++ more)

/-- A fully successful `runOrder` appends exactly the chain's entries. -/
theorem runOrder_ok {V Env : Type} (rt : Runtime V Env)
    (node_map : List (String × NodeIn)) (cidx : ℕ) :
    ∀ (order : List String) (env envf : Env) (logs entries : List LogEntry),
    execChain rt node_map cidx order env = some (envf, entries) →
    runOrder rt node_map cidx order env logs = .inr (envf, logs ++ entries)
  | [], env, envf, logs, entries, h => by
    simp only [execChain, Option.some.injEq, Prod.mk.injEq] at h
    simp [runOrder, h.1, h.2.symm]
  | nid :: rest, env, envf, logs, entries, h => by
    rw [execChain] at h
    rcases hrc : runCell rt (codeOf node_map nid) env with t | ⟨env', out⟩
    · simp only [hrc] at h
      exact absurd h (by simp)
    · simp only [hrc] at h
      rcases hch : execChain rt node_map cidx rest env' with _ | ⟨envf', entries'⟩
      · simp only [hch] at h
        exact absurd h (by simp)
      · simp only [hch, Option.some.injEq, Prod.mk.injEq] at h
        simp only [runOrder, hrc,
          runOrder_ok rt node_map cidx rest env' envf' (logs ++ [⟨nid, cidx, out⟩])
            entries' hch, h.1]
        rw [← h.2]
        simp

/-- A `runOrder` whose prefix succeeds and whose next cell faults returns
the failure result built from exactly the prefix entries. -/
theorem runOrder_fail {V Env : Type} (rt : Runtime V Env)
    (node_map : List (String × NodeIn)) (cidx : ℕ) (nid : String)
    (post : List String) (t : String) :
    ∀ (pre : List String) (env envm : Env) (logs entries : List LogEntry),
    execChain rt node_map cidx pre env = some (envm, entries) →
    runCell rt (codeOf node_map nid) envm = .error t →
    runOrder rt node_map cidx (pre ++ nid :: post) env logs =
      .inl (.failure nid cidx t (logs ++ entries))
  | [], env, envm, logs, entries, h, hf => by
    simp only [execChain, Option.some.injEq, Prod.mk.injEq] at h
    rw [List.nil_append, runOrder, h.1, hf, ← h.2, List.append_nil]
  | nid' :: rest, env, envm, logs, entries, h, hf => by
    rw [execChain] at h
    rcases hrc : runCell rt (codeOf node_map nid') env with t' | ⟨env', out⟩
    · simp only [hrc] at h
      exact absurd h (by simp)
    · simp only [hrc] at h
      rcases hch : execChain rt node_map cidx rest env' with _ | ⟨envf', entries'⟩
      · simp only [hch] at h
        exact absurd h (by simp)
      · simp only [hch, Option.some.injEq, Prod.mk.injEq] at h
        have hrec := runOrder_fail rt node_map cidx nid post t rest env' envm
          (logs ++ [⟨nid', cidx, out⟩]) entries' (by rw [hch, h.1]) hf
        rw [List.cons_append]
        simp only [runOrder, hrc, hrec]
        rw [← h.2]
        simp

/-- Fully successful leading components advance `runComps` to the rest,
with their entries appended and the counter advanced. -/
theorem runComps_advance {V Env : Type} (rt : Runtime V Env)
    (node_map : List (String × NodeIn)) :
    ∀ (doneC rest : List (List String × List EdgeIn)) (c : ℕ)
      (logs entries : List LogEntry),
    compsChain rt node_map doneC c = some entries →
    runComps rt node_map (doneC ++ rest) c logs =
      runComps rt node_map rest (c + doneC.length) (logs ++ entries)
  | [], rest, c, logs, entries, h => by
    simp only [compsChain, Option.some.injEq] at h
    simp [← h]
  | (order, ce) :: drest, rest, c, logs, entries, h => by
    rw [compsChain] at h
    rcases hch : execChain rt node_map (c + 1) order rt.emptyEnv with _ | ⟨envf, e1⟩
    · simp only [hch] at h
      exact absurd h (by simp)
    · simp only [hch] at h
      rcases hcc : compsChain rt node_map drest (c + 1) with _ | more
      · simp only [hcc] at h
        exact absurd h (by simp)
      · simp only [hcc, Option.some.injEq] at h
        rw [List.cons_append]
        simp only [runComps,
          runOrder_ok rt node_map (c + 1) order rt.emptyEnv envf logs e1 hch,
          runComps_advance rt node_map drest rest (c + 1) (logs ++ e1) more hcc,
          ← h, List.append_assoc]
        have hcl : c + 1 + drest.length = c + (drest.length + 1) := by omega
        rw [hcl]
        simp

/-- C7: stop on first fault. If the scheduled components split as fully
successful leading components, then a failing component whose order has a
successful prefix followed by a faulting cell, the graph-driven run
returns the failure result carrying that node id, its 1-based component
index, the fault text, and exactly the log entries of the cells completed
before the fault (one entry per successful cell, in execution order) — the
failing cell, the rest of its component, and all later components
contribute nothing. -/
theorem claim_C7 {V Env : Type} (rt : Runtime V Env)
    (nodes : List NodeIn) (edges : List EdgeIn)
    (doneC laterC : List (List String × List EdgeIn))
    (failOrder : List String) (failEdges : List EdgeIn)
    (pre post : List String) (nid : String)
    (doneLogs preLogs : List LogEntry) (preEnv : Env) (t : String)
    (hsplit : (topoSort nodes edges).1 = doneC ++ (failOrder, failEdges) :: laterC)
    (horder : failOrder = pre ++ nid :: post)
    (hdone : compsChain rt (topoSort nodes edges).2 doneC 0 = some doneLogs)
    (hpre : execChain rt (topoSort nodes edges).2 (doneC.length + 1) pre
      rt.emptyEnv = some (preEnv, preLogs))
    (hfail : runCell rt (codeOf (topoSort nodes edges).2 nid) preEnv = .error t) :
    run_graph rt nodes edges =
      .failure nid (doneC.length + 1) t (doneLogs ++ preLogs) := by
  rw [run_graph]
  show runComps rt (topoSort nodes edges).2 (topoSort nodes edges).1 0 [] = _
  rw [hsplit, runComps_advance rt (topoSort nodes edges).2 doneC _ 0 [] doneLogs hdone,
    List.nil_append, runComps, horder,
    runOrder_fail rt (topoSort nodes edges).2 (0 + doneC.length + 1) nid post t pre
      rt.emptyEnv preEnv doneLogs preLogs (by rw [← hpre]; norm_num) hfail]
  norm_num

/-- Runtime used by the C7 witness: the cell text `boom` faults at
runtime, everything else runs and prints `ran\n`. -/
def witRtC7 : Runtime ℕ ℕ where
  parse := fun c =>
    if c = "boom" then some ⟨[.otherStmt [] []]⟩
    else some ⟨[.assign [.name "x" false] (.other [])]⟩
  parseErrTrace := fun _ => "SyntaxError: trace"
  execStmts := fun ss env =>
    match ss with
    | [.otherStmt _ _] => .fault "" "ZeroDivisionError: trace"
    | _ => .ok (env + 1) "ran\n"
  evalExpr := fun _ env => .ok env "" none
  reprV := natStr
  emptyEnv := 0

/-- Nodes of the C7 witness graph: `a` runs fine, `b` faults, `c` is in a
later component that must never start. -/
def witNodesC7 : List NodeIn := [⟨"a", "x = 1"⟩, ⟨"b", "boom"⟩, ⟨"c", "x = 1"⟩]

/-- The single dependency edge `a → b` of the C7 witness graph. -/
def witEdgesC7 : List EdgeIn := [⟨"a", "b"⟩]

/-- Witness for C7: on the graph `a → b`, `c`, cell `b` faults after `a`
succeeded; the run reports `b`, component 1, the fault text, and exactly
`a`'s log entry — nothing from `b` or from the second component. -/
theorem claim_C7_witness :
    ((topoSort witNodesC7 witEdgesC7).1 =
      [] ++ (["a", "b"], [⟨"a", "b"⟩]) :: [(["c"], [])] ∧
     (["a", "b"] : List String) = ["a"] ++ "b" :: [] ∧
     compsChain witRtC7 (topoSort witNodesC7 witEdgesC7).2 [] 0 = some [] ∧
     execChain witRtC7 (topoSort witNodesC7 witEdgesC7).2 1 ["a"] witRtC7.emptyEnv =
       some (1, [⟨"a", 1, "ran\n"⟩]) ∧
     runCell witRtC7 (codeOf (topoSort witNodesC7 witEdgesC7).2 "b") 1 =
       .error ("" ++ "ZeroDivisionError: trace")) ∧
    run_graph witRtC7 witNodesC7 witEdgesC7 =
      .failure "b" 1 ("" ++ "ZeroDivisionError: trace") ([] ++ [⟨"a", 1, "ran\n"⟩]) :=
  ⟨⟨by decide, rfl, rfl, rfl, rfl⟩,
    claim_C7 witRtC7 witNodesC7 witEdgesC7 [] [(["c"], [])] ["a", "b"] [⟨"a", "b"⟩]
      ["a"] [] "b" [] [⟨"a", 1, "ran\n"⟩] 1 ("" ++ "ZeroDivisionError: trace")
      (by decide) rfl rfl rfl rfl⟩

/-! ### Component-walk invariants -/

/-- Invariants of the push loop `for v in undirected[u]`: it moves
elements from `unseen` to the queue (preserving the multiset and
duplicate-freeness), never grows `unseen`, and leaves none of the visited
neighbours unseen. -/
theorem pushStep_fold (ns : List String) :
    ∀ (q unseen : List String),
    (((ns.foldl pushStep (q, unseen)).1 ++ (ns.foldl pushStep (q, unseen)).2).Perm
      (q ++ unseen)) ∧
    (∀ x ∈ (ns.foldl pushStep (q, unseen)).2, x ∈ unseen) ∧
    (unseen.Nodup → (ns.foldl pushStep (q, unseen)).2.Nodup) ∧
    (unseen.Nodup → ∀ v ∈ ns, v ∉ (ns.foldl pushStep (q, unseen)).2) := by
  induction ns with
  | nil => exact fun q unseen => ⟨List.Perm.refl _, fun x hx => hx, fun h => h, by simp⟩
  | cons v ns ih =>
    intro q unseen
    rw [List.foldl_cons]
    by_cases hv : v ∈ unseen
    · have hstep : pushStep (q, unseen) v = (q ++ [v], unseen.erase v) := by
        rw [pushStep, if_pos hv]
      rw [hstep]
      obtain ⟨ihp, ihs, ihn, ihd⟩ := ih (q ++ [v]) (unseen.erase v)
      have herase : ((q ++ [v]) ++ unseen.erase v).Perm (q ++ unseen) := by
        rw [List.append_assoc]
        exact (List.Perm.append_left q
          ((List.perm_cons_erase hv).symm)).symm.symm
      refine ⟨ihp.trans herase, fun x hx => List.erase_subset v unseen (ihs x hx),
        fun hnd => ihn (hnd.erase v), fun hnd v' hv' => ?_⟩
      rcases List.mem_cons.mp hv' with rfl | hv''
      · intro hmem
        exact (List.Nodup.not_mem_erase hnd) (ihs v' hmem)
      · exact ihd (hnd.erase v) v' hv''
    · have hstep : pushStep (q, unseen) v = (q, unseen) := by
        rw [pushStep, if_neg hv]
      rw [hstep]
      obtain ⟨ihp, ihs, ihn, ihd⟩ := ih q unseen
      refine ⟨ihp, ihs, ihn, fun hnd v' hv' => ?_⟩
      rcases List.mem_cons.mp hv' with rfl | hv''
      · exact fun hmem => hv (ihs v' hmem)
      · exact ihd hnd v' hv''

/-- Invariants of the component walk, for adequate fuel: the walk moves
the queue and part of `unseen` into the collected component (preserving
the multiset), only shrinks `unseen`, keeps it duplicate-free, and leaves
no undirected neighbour of a collected node unseen. -/
theorem walkF_spec (und : String → List String) :
    ∀ (fuel : ℕ) (q unseen comp : List String),
    q.length + unseen.length ≤ fuel → unseen.Nodup →
    (((walkF und fuel q unseen comp).1 ++ (walkF und fuel q unseen comp).2).Perm
      (comp ++ q ++ unseen)) ∧
    (∀ x ∈ (walkF und fuel q unseen comp).2, x ∈ unseen) ∧
    (walkF und fuel q unseen comp).2.Nodup ∧
    ((∀ u ∈ comp, ∀ x ∈ und u, x ∉ unseen) →
      ∀ u ∈ (walkF und fuel q unseen comp).1, ∀ x ∈ und u,
        x ∉ (walkF und fuel q unseen comp).2) := by
  intro fuel
  induction fuel with
  | zero =>
    intro q unseen comp hfuel hnd
    match q with
    | [] =>
      rw [walkF]
      exact ⟨by simp, fun x hx => hx, hnd, fun h => h⟩
    | x :: xs => simp at hfuel
  | succ fuel ih =>
    intro q unseen comp hfuel hnd
    match q with
    | [] =>
      rw [walkF]
      exact ⟨by simp, fun x hx => hx, hnd, fun h => h⟩
    | x :: xs =>
      rw [walkF]
      set u := (x :: xs).getLast (by simp) with hu
      set q0 := (x :: xs).dropLast with hq0
      obtain ⟨fp, fs, fn, fd⟩ := pushStep_fold (und u) q0 unseen
      set st := (und u).foldl pushStep (q0, unseen) with hst
      have hlen : st.1.length + st.2.length = q0.length + unseen.length := by
        have := fp.length_eq
        simpa using this
      have hq0len : q0.length + 1 = (x :: xs).length := by
        rw [hq0]
        simp
      have hfuel' : st.1.length + st.2.length ≤ fuel := by omega
      obtain ⟨ihp, ihs, ihn, ihd⟩ := ih st.1 st.2 (comp ++ [u]) hfuel' (fn hnd)
      have hdecomp : q0 ++ [u] = x :: xs := List.dropLast_concat_getLast (by simp)
      refine ⟨?_, fun y hy => fs y (ihs y hy), ihn, ?_⟩
      · refine ihp.trans ?_
        have e1 : (comp ++ [u]) ++ st.1 ++ st.2 = (comp ++ [u]) ++ (st.1 ++ st.2) := by
          rw [List.append_assoc]
        have e2 : (comp ++ [u]) ++ (q0 ++ unseen) = comp ++ (([u] ++ q0) ++ unseen) := by
          simp [List.append_assoc]
        have e3 : comp ++ ((q0 ++ [u]) ++ unseen) = comp ++ (x :: xs) ++ unseen := by
          rw [hdecomp, List.append_assoc]
        rw [e1]
        refine (List.Perm.append_left _ fp).trans ?_
        rw [e2, ← e3]
        exact List.Perm.append_left comp
          (List.Perm.append_right unseen List.perm_append_comm)
      · intro hcl
        refine ihd ?_
        intro u' hu' y hy
        rcases List.mem_append.mp hu' with hin | hin
        · exact fun hmem => hcl u' hin y hy (fs y hmem)
        · have : u' = u := by simpa using hin
          subst this
          exact fd hnd y hy

/-- The walk with its canonical fuel satisfies the walk invariants. -/
theorem walk_spec (und : String → List String) (q unseen comp : List String)
    (hnd : unseen.Nodup) :
    (((walk und q unseen comp).1 ++ (walk und q unseen comp).2).Perm
      (comp ++ q ++ unseen)) ∧
    (∀ x ∈ (walk und q unseen comp).2, x ∈ unseen) ∧
    (walk und q unseen comp).2.Nodup ∧
    ((∀ u ∈ comp, ∀ x ∈ und u, x ∉ unseen) →
      ∀ u ∈ (walk und q unseen comp).1, ∀ x ∈ und u,
        x ∉ (walk und q unseen comp).2) :=
  walkF_spec und (q.length + unseen.length) q unseen comp le_rfl hnd

/-- Invariants of the component-discovery loop: the collected components
and the final unseen remainder are a permutation of the initial `unseen`;
the remainder is duplicate-free, shrinks, and is empty as soon as the
iteration list covers `unseen`; components have no undirected edge into a
later component nor into the remainder. -/
theorem compsGo_spec (und : String → List String) :
    ∀ (l unseen : List String), unseen.Nodup →
    (((compsGo und l unseen).1.flatten ++ (compsGo und l unseen).2).Perm unseen) ∧
    (compsGo und l unseen).2.Nodup ∧
    (∀ x ∈ (compsGo und l unseen).2, x ∈ unseen) ∧
    ((∀ x ∈ unseen, x ∈ l) → (compsGo und l unseen).2 = []) ∧
    List.Pairwise (fun c1 c2 => ∀ u ∈ c1, ∀ x ∈ und u, x ∉ c2)
      (compsGo und l unseen).1 ∧
    (∀ c ∈ (compsGo und l unseen).1, ∀ u ∈ c, ∀ x ∈ und u,
      x ∉ (compsGo und l unseen).2) := by
  intro l
  induction l with
  | nil =>
    intro unseen hnd
    refine ⟨by simp [compsGo], hnd, fun x hx => hx, ?_, by simp [compsGo], by simp [compsGo]⟩
    intro hcov
    rw [compsGo]
    match hu : unseen with
    | [] => rfl
    | y :: ys => exact absurd (hcov y (by simp)) (by simp)
  | cons i rest ih =>
    intro unseen hnd
    rw [compsGo]
    by_cases hi : i ∈ unseen
    · rw [if_pos hi]
      have hndE : (unseen.erase i).Nodup := hnd.erase i
      obtain ⟨wp, ws, wn, wd⟩ := walk_spec und [i] (unseen.erase i) [] hndE
      set w := walk und [i] (unseen.erase i) [] with hw
      have hwperm : (w.1 ++ w.2).Perm unseen := by
        refine wp.trans ?_
        have : ([] ++ [i] ++ unseen.erase i : List String) = i :: unseen.erase i := by simp
        rw [this]
        exact (List.perm_cons_erase hi).symm
      obtain ⟨rp, rn, rs, rc, rpw, rlast⟩ := ih w.2 wn
      set r := compsGo und rest w.2 with hr
      have hrsub : ∀ x, x ∈ r.1.flatten ∨ x ∈ r.2 → x ∈ w.2 := by
        intro x hx
        have := rp.mem_iff (a := x)
        rw [← this]
        rcases hx with hx | hx
        · exact List.mem_append.mpr (Or.inl hx)
        · exact List.mem_append.mpr (Or.inr hx)
      refine ⟨?_, rn, ?_, ?_, ?_, ?_⟩
      · show ((w.1 :: r.1).flatten ++ r.2).Perm unseen
        rw [List.flatten_cons, List.append_assoc]
        exact (List.Perm.append_left w.1 rp).trans hwperm
      · intro x hx
        exact List.erase_subset i unseen (ws x (rs x hx))
      · intro hcov
        refine rc ?_
        intro x hx
        have hxu : x ∈ unseen.erase i := ws x hx
        have hxne : x ≠ i := (List.Nodup.mem_erase_iff hnd).mp hxu |>.1
        have : x ∈ i :: rest := hcov x (List.erase_subset i unseen hxu)
        rcases List.mem_cons.mp this with h | h
        · exact absurd h hxne
        · exact h
      · show List.Pairwise _ (w.1 :: r.1)
        refine List.Pairwise.cons ?_ rpw
        intro c2 hc2 u hu x hx
        intro hxc2
        have hx2 : x ∈ w.2 := hrsub x (Or.inl (List.mem_flatten.mpr ⟨c2, hc2, hxc2⟩))
        exact wd (by intro u' hu'; exact absurd hu' (by simp)) u hu x hx hx2
      · intro c hc u hu x hx
        rcases List.mem_cons.mp hc with rfl | hc'
        · intro hxr
          exact wd (by intro u' hu'; exact absurd hu' (by simp)) u hu x hx
            (hrsub x (Or.inr hxr))
        · exact rlast c hc' u hu x hx
    · rw [if_neg hi]
      obtain ⟨rp, rn, rs, rc, rpw, rlast⟩ := ih unseen hnd
      refine ⟨rp, rn, rs, ?_, rpw, rlast⟩
      intro hcov
      refine rc ?_
      intro x hx
      rcases List.mem_cons.mp (hcov x hx) with rfl | h
      · exact absurd hx hi
      · exact h

/-! ### The node-map key list -/

/-- `dictInsert` on a present key keeps the key list unchanged. -/
theorem dictInsert_keys_mem (m : List (String × NodeIn)) (k : String) (v : NodeIn)
    (h : m.any (fun p => p.1 = k) = true) :
    (dictInsert m k v).map (fun p => p.1) = m.map (fun p => p.1) := by
  rw [dictInsert, if_pos h, List.map_map]
  refine List.map_congr_left ?_
  intro p _
  by_cases hp : p.1 = k
  · simp [hp]
  · simp [hp]

/-- `dictInsert` on an absent key appends it to the key list. -/
theorem dictInsert_keys_not_mem (m : List (String × NodeIn)) (k : String) (v : NodeIn)
    (h : ¬ m.any (fun p => p.1 = k) = true) :
    (dictInsert m k v).map (fun p => p.1) = m.map (fun p => p.1) ++ [k] := by
  rw [dictInsert, if_neg h, List.map_append]
  rfl

/-- The `any` test of `dictInsert` is key-list membership. -/
theorem dictInsert_any_iff (m : List (String × NodeIn)) (k : String) :
    m.any (fun p => p.1 = k) = true ↔ k ∈ m.map (fun p => p.1) := by
  rw [List.any_eq_true]
  constructor
  · rintro ⟨p, hp, he⟩
    exact List.mem_map.mpr ⟨p, hp, by simpa using he⟩
  · rintro hm
    obtain ⟨p, hp, he⟩ := List.mem_map.mp hm
    exact ⟨p, hp, by simpa using he⟩

/-- The node-map key list never acquires duplicates. -/
theorem buildNodeMap_keys_nodup_go : ∀ (nodes : List NodeIn)
    (m : List (String × NodeIn)), (m.map (fun p => p.1)).Nodup →
    ((nodes.foldl
      (fun m n => if isBlankCode n.code then m else dictInsert m n.id n) m).map
        (fun p => p.1)).Nodup
  | [], m, h => h
  | n :: rest, m, h => by
    rw [List.foldl_cons]
    by_cases hb : isBlankCode n.code
    · rw [if_pos hb]
      exact buildNodeMap_keys_nodup_go rest m h
    · rw [if_neg hb]
      refine buildNodeMap_keys_nodup_go rest _ ?_
      by_cases hmem : m.any (fun p => p.1 = n.id) = true
      · rw [dictInsert_keys_mem m n.id n hmem]
        exact h
      · rw [dictInsert_keys_not_mem m n.id n hmem]
        have : n.id ∉ m.map (fun p => p.1) := fun hc =>
          hmem ((dictInsert_any_iff m n.id).mpr hc)
        simp [List.nodup_append, h, this]

/-- `ids = list(node_map.keys())` has no duplicates. -/
theorem tsIds_nodup (nodes : List NodeIn) : (tsIds nodes).Nodup :=
  buildNodeMap_keys_nodup_go nodes [] (by simp)

/-- `dictFind` misses exactly the non-keys. -/
theorem dictFind_eq_none_iff (m : List (String × NodeIn)) (s : String) :
    dictFind m s = none ↔ s ∉ m.map (fun p => p.1) := by
  rw [dictFind, Option.map_eq_none', List.find?_eq_none]
  constructor
  · intro h hc
    obtain ⟨p, hp, he⟩ := List.mem_map.mp hc
    have hne : ¬ p.1 = s := by simpa using h p hp
    exact hne he
  · intro h p hp
    simp only [decide_eq_true_eq]
    intro hc
    exact h (List.mem_map.mpr ⟨p, hp, hc⟩)

/-- A string is a node-map key exactly when some input node carries it
with non-blank code. -/
theorem mem_tsIds_iff (nodes : List NodeIn) (s : String) :
    s ∈ tsIds nodes ↔ ∃ n ∈ nodes, n.id = s ∧ ¬ isBlankCode n.code = true := by
  have h := buildNodeMap_go_find nodes [] s
  have hnil : dictFind ([] : List (String × NodeIn)) s = none := rfl
  rw [hnil] at h
  have hfind : dictFind (buildNodeMap nodes) s =
      (nodes.filter (fun n => decide (n.id = s) && !isBlankCode n.code)).getLast? := by
    rw [buildNodeMap, h]
    cases (nodes.filter (fun n => decide (n.id = s) && !isBlankCode n.code)).getLast? <;>
      simp [Option.or]
  rw [tsIds, ← not_iff_not, ← dictFind_eq_none_iff, hfind,
    List.getLast?_eq_none_iff, List.filter_eq_nil_iff]
  constructor
  · intro hall
    rintro ⟨n, hn, hid, hnb⟩
    have := hall n hn
    simp [hid, hnb] at this
  · intro hne n hn
    simp only [Bool.and_eq_true, decide_eq_true_eq, Bool.not_eq_true',
      not_and]
    intro hid
    by_cases hb : isBlankCode n.code
    · intro hc
      exact absurd hb (by simp [hc])
    · exact absurd ⟨n, hn, hid, hb⟩ hne

/-- C5: segmentation partitions the filtered node set. The concatenation
of the components is a permutation of the node-map key list (so every
retained id is in some component and components contain only retained
ids), components are pairwise disjoint and duplicate-free, and the
retained ids are exactly those carried by some input node with non-blank
code — blank or whitespace-only nodes appear in no component. -/
theorem claim_C5 (nodes : List NodeIn) (edges : List EdgeIn) :
    ((tsComponents nodes edges).flatten.Perm (tsIds nodes)) ∧
    List.Pairwise (fun c1 c2 => ∀ x ∈ c1, x ∉ c2) (tsComponents nodes edges) ∧
    (∀ c ∈ tsComponents nodes edges, c.Nodup) ∧
    (∀ s, s ∈ tsIds nodes ↔ ∃ n ∈ nodes, n.id = s ∧ ¬ isBlankCode n.code = true) := by
  obtain ⟨rp, rn, rs, rc, rpw, rlast⟩ :=
    compsGo_spec (tsUnd nodes edges) (tsIds nodes) (tsIds nodes) (tsIds_nodup nodes)
  have hfinal : (compsGo (tsUnd nodes edges) (tsIds nodes) (tsIds nodes)).2 = [] :=
    rc (fun x hx => hx)
  have hperm : (tsComponents nodes edges).flatten.Perm (tsIds nodes) := by
    have := rp
    rw [hfinal, List.append_nil] at this
    exact this
  have hnodup : (tsComponents nodes edges).flatten.Nodup :=
    hperm.nodup_iff.mpr (tsIds_nodup nodes)
  have hpw := List.nodup_flatten.mp hnodup
  refine ⟨hperm, hpw.2.imp ?_, hpw.1, mem_tsIds_iff nodes⟩
  intro c1 c2 hdis x hx hx2
  exact hdis hx hx2

/-! ### Adjacency and in-degree invariants -/

/-- One edge step never removes an adjacency. -/
theorem addEdge_adj_mono (ids : List String)
    (st : (String → List String) × (String → Int)) (e : EdgeIn) (s t : String)
    (h : t ∈ st.1 s) : t ∈ (addEdge ids st e).1 s := by
  rw [addEdge]
  split
  · split
    · exact h
    · simp only [Function.update_apply]
      split
      · rename_i hs
        subst hs
        exact List.mem_append.mpr (Or.inl h)
      · exact h
  · exact h

/-- The edge fold never removes an adjacency. -/
theorem foldl_addEdge_adj_mono (ids : List String) :
    ∀ (edges : List EdgeIn) (st : (String → List String) × (String → Int))
    (s t : String), t ∈ st.1 s → t ∈ (edges.foldl (addEdge ids) st).1 s
  | [], _, _, _, h => h
  | e :: rest, st, s, t, h =>
    foldl_addEdge_adj_mono ids rest (addEdge ids st e) s t
      (addEdge_adj_mono ids st e s t h)

/-- Flipping one predicate value from false to true at a member of a
duplicate-free list grows the filter length by exactly one. -/
theorem filter_length_update_true : ∀ (ids : List String), ids.Nodup →
    ∀ (s0 : String), s0 ∈ ids → ∀ (p q : String → Bool),
    (∀ s, s ≠ s0 → p s = q s) → p s0 = false → q s0 = true →
    (ids.filter q).length = (ids.filter p).length + 1
  | [], _, s0, h0, _, _, _, _, _ => absurd h0 (by simp)
  | h :: rest, hnd, s0, h0, p, q, hagree, hp, hq => by
    by_cases hh : h = s0
    · subst hh
      have hnr : h ∉ rest := (List.nodup_cons.mp hnd).1
      have hcongr : rest.filter p = rest.filter q :=
        List.filter_congr (fun a ha => hagree a (fun hc => hnr (hc ▸ ha)))
      rw [List.filter_cons, List.filter_cons, hp, hq, hcongr]
      simp
    · have hrest : s0 ∈ rest := by
        rcases List.mem_cons.mp h0 with hc | hc
        · exact absurd hc.symm hh
        · exact hc
      have ih := filter_length_update_true rest (List.nodup_cons.mp hnd).2 s0 hrest
        p q hagree hp hq
      rw [List.filter_cons, List.filter_cons, hagree h hh]
      cases hqh : q h
      · simpa using ih
      · simpa using ih

/-- Invariants preserved by the whole edge fold: adjacency lists stay
duplicate-free, record only non-self pairs of node ids, and the in-degree
of `t` counts the node ids whose adjacency contains `t`. -/
theorem foldl_addEdge_inv (ids : List String) (hnd : ids.Nodup) :
    ∀ (edges : List EdgeIn) (st : (String → List String) × (String → Int)),
    (∀ s, (st.1 s).Nodup) →
    (∀ s t, t ∈ st.1 s → s ∈ ids ∧ t ∈ ids ∧ s ≠ t) →
    (∀ t, st.2 t = ((ids.filter (fun s => decide (t ∈ st.1 s))).length : ℤ)) →
    (∀ s, ((edges.foldl (addEdge ids) st).1 s).Nodup) ∧
    (∀ s t, t ∈ (edges.foldl (addEdge ids) st).1 s →
      s ∈ ids ∧ t ∈ ids ∧ s ≠ t) ∧
    (∀ t, (edges.foldl (addEdge ids) st).2 t =
      ((ids.filter (fun s => decide (t ∈ (edges.foldl (addEdge ids) st).1 s))).length : ℤ))
  | [], st, h1, h2, h3 => ⟨h1, h2, h3⟩
  | e :: rest, st, h1, h2, h3 => by
    rw [List.foldl_cons]
    refine foldl_addEdge_inv ids hnd rest (addEdge ids st e) ?_ ?_ ?_
    · intro s
      rw [addEdge]
      split
      · split
        · exact h1 s
        · rename_i hcond hmem
          simp only [Function.update_apply]
          split
          · rename_i hs
            have hnod : (st.1 e.source).Nodup := h1 e.source
            simp only [List.nodup_append, List.nodup_cons, List.nodup_nil]
            refine ⟨hnod, by simp, ?_⟩
            intro a ha
            simp only [List.mem_singleton]
            intro hc
            subst hc
            exact hmem ha
          · exact h1 s
      · exact h1 s
    · intro s t ht
      rw [addEdge] at ht
      split at ht
      · rename_i hcond
        split at ht
        · exact h2 s t ht
        · simp only [Function.update_apply] at ht
          split at ht
          · rename_i hs
            rcases List.mem_append.mp ht with hin | hin
            · exact h2 s t (by rw [hs]; exact hin)
            · have htt : t = e.target := by simpa using hin
              rw [hs, htt]
              exact ⟨hcond.1, hcond.2.1, hcond.2.2⟩
          · exact h2 s t ht
      · exact h2 s t ht
    · intro t
      rw [addEdge]
      split
      · rename_i hcond
        split
        · exact h3 t
        · rename_i hmem
          simp only [Function.update_apply]
          by_cases hte : t = e.target
          · rw [if_pos hte, hte, h3 e.target]
            have hlen : ((ids.filter (fun s => decide (e.target ∈
                (if s = e.source then st.1 e.source ++ [e.target] else st.1 s)))).length)
                = (ids.filter (fun s => decide (e.target ∈ st.1 s))).length + 1 := by
              refine filter_length_update_true ids hnd e.source hcond.1 _ _ ?_ ?_ ?_
              · intro s hs
                simp [hs]
              · simpa using hmem
              · simp
            rw [hlen]
            push_cast
            ring
          · rw [if_neg hte, h3 t]
            congr 1
            refine congrArg _ (List.filter_congr ?_)
            intro s _
            rw [decide_eq_decide]
            split
            · rename_i hs
              rw [hs]
              simp [hte]
            · rfl
      · exact h3 t

/-- Adjacency lists of `_topo_sort` are duplicate-free. -/
theorem tsAdj_nodup (nodes : List NodeIn) (edges : List EdgeIn) (s : String) :
    (tsAdj nodes edges s).Nodup :=
  (foldl_addEdge_inv (tsIds nodes) (tsIds_nodup nodes) edges
    (fun _ => [], fun _ => 0) (fun _ => List.nodup_nil)
    (fun _ _ h => absurd h (by simp)) (fun _ => by simp)).1 s

/-- Every recorded adjacency is a non-self pair of node-map keys. -/
theorem tsAdj_endpoints (nodes : List NodeIn) (edges : List EdgeIn) (s t : String)
    (h : t ∈ tsAdj nodes edges s) :
    s ∈ tsIds nodes ∧ t ∈ tsIds nodes ∧ s ≠ t :=
  (foldl_addEdge_inv (tsIds nodes) (tsIds_nodup nodes) edges
    (fun _ => [], fun _ => 0) (fun _ => List.nodup_nil)
    (fun _ _ h => absurd h (by simp)) (fun _ => by simp)).2.1 s t h

/-- The in-degree of `t` counts the node-map keys whose adjacency list
contains `t`. -/
theorem tsIndeg_count (nodes : List NodeIn) (edges : List EdgeIn) (t : String) :
    tsIndeg nodes edges t =
      (((tsIds nodes).filter (fun s => decide (t ∈ tsAdj nodes edges s))).length : ℤ) :=
  (foldl_addEdge_inv (tsIds nodes) (tsIds_nodup nodes) edges
    (fun _ => [], fun _ => 0) (fun _ => List.nodup_nil)
    (fun _ _ h => absurd h (by simp)) (fun _ => by simp)).2.2 t

/-- Every recorded adjacency comes from some input edge. -/
theorem foldl_addEdge_adj_src (ids : List String) :
    ∀ (edges : List EdgeIn) (st : (String → List String) × (String → Int))
    (s t : String), t ∈ (edges.foldl (addEdge ids) st).1 s →
    t ∈ st.1 s ∨ ∃ e ∈ edges, e.source = s ∧ e.target = t
  | [], _, _, _, h => Or.inl h
  | e :: rest, st, s, t, h => by
    rw [List.foldl_cons] at h
    rcases foldl_addEdge_adj_src ids rest (addEdge ids st e) s t h with hin | ⟨e', he', hm⟩
    · rw [addEdge] at hin
      split at hin
      · split at hin
        · exact Or.inl hin
        · simp only [Function.update_apply] at hin
          split at hin
          · rename_i hs
            rcases List.mem_append.mp hin with hin' | hin'
            · exact Or.inl (by rw [hs]; exact hin')
            · have : t = e.target := by simpa using hin'
              exact Or.inr ⟨e, by simp, hs.symm, this.symm⟩
          · exact Or.inl hin
      · exact Or.inl hin
    · exact Or.inr ⟨e', by simp [he'], hm⟩

/-- Conversely, every well-formed non-self input edge is recorded. -/
theorem foldl_addEdge_adj_complete (ids : List String) :
    ∀ (edges : List EdgeIn) (st : (String → List String) × (String → Int))
    (e : EdgeIn), e ∈ edges → e.source ∈ ids → e.target ∈ ids →
    e.source ≠ e.target →
    e.target ∈ (edges.foldl (addEdge ids) st).1 e.source
  | [], _, e, he, _, _, _ => absurd he (by simp)
  | e' :: rest, st, e, he, hs, ht, hne => by
    rw [List.foldl_cons]
    rcases List.mem_cons.mp he with rfl | he'
    · refine foldl_addEdge_adj_mono ids rest _ e.source e.target ?_
      rw [addEdge, if_pos ⟨hs, ht, hne⟩]
      by_cases hmem : e.target ∈ st.1 e.source
      · rw [if_pos hmem]
        exact hmem
      · rw [if_neg hmem]
        simp [Function.update_apply]
    · exact foldl_addEdge_adj_complete ids rest (addEdge ids st e') e he' hs ht hne

/-- `t ∈ adj s` exactly when some input edge joins two distinct node-map
keys `s → t`. -/
theorem mem_tsAdj_iff (nodes : List NodeIn) (edges : List EdgeIn) (s t : String) :
    t ∈ tsAdj nodes edges s ↔
      s ∈ tsIds nodes ∧ t ∈ tsIds nodes ∧ s ≠ t ∧
      ∃ e ∈ edges, e.source = s ∧ e.target = t := by
  constructor
  · intro h
    obtain ⟨hs, ht, hne⟩ := tsAdj_endpoints nodes edges s t h
    rcases foldl_addEdge_adj_src (tsIds nodes) edges (fun _ => [], fun _ => 0) s t h with
      hin | hex
    · exact absurd hin (by simp)
    · exact ⟨hs, ht, hne, hex⟩
  · rintro ⟨hs, ht, hne, e, he, hes, het⟩
    have := foldl_addEdge_adj_complete (tsIds nodes) edges (fun _ => [], fun _ => 0)
      e he (by rw [hes]; exact hs) (by rw [het]; exact ht) (by rw [hes, het]; exact hne)
    rw [hes, het] at this
    exact this

/-! ### Properties of the undirected adjacency -/

/-- Membership in a `set.add` step. -/
theorem mem_addOnce (l : List String) (v x : String) :
    x ∈ addOnce l v ↔ x ∈ l ∨ x = v := by
  rw [addOnce]
  split
  · rename_i hv
    constructor
    · exact Or.inl
    · rintro (h | rfl)
      · exact h
      · exact hv
  · simp

/-- Membership after one symmetrisation step. -/
theorem mem_undAddPair (und : String → List String) (s t a x : String) :
    x ∈ undAddPair und s t a ↔
      x ∈ und a ∨ (a = s ∧ x = t) ∨ (a = t ∧ x = s) := by
  rw [undAddPair]
  simp only [Function.update_apply]
  by_cases hat : a = t <;> by_cases has : a = s <;> by_cases hts : t = s <;>
    simp_all [mem_addOnce] <;> tauto

/-- One symmetrisation step preserves symmetry of the relation. -/
theorem undAddPair_symm (und : String → List String) (s t : String)
    (h : ∀ a b, b ∈ und a → a ∈ und b) :
    ∀ a b, b ∈ undAddPair und s t a → a ∈ undAddPair und s t b := by
  intro a b hab
  rw [mem_undAddPair] at hab ⊢
  rcases hab with hin | ⟨rfl, rfl⟩ | ⟨rfl, rfl⟩
  · exact Or.inl (h a b hin)
  · tauto
  · tauto

/-- One symmetrisation step only grows the relation. -/
theorem undAddPair_mono (und : String → List String) (s t a x : String)
    (h : x ∈ und a) : x ∈ undAddPair und s t a :=
  (mem_undAddPair und s t a x).mpr (Or.inl h)

/-- The inner fold over one node's neighbours preserves symmetry. -/
theorem foldl_undAddPair_symm (s : String) :
    ∀ (ts : List String) (und : String → List String),
    (∀ a b, b ∈ und a → a ∈ und b) →
    ∀ a b, b ∈ (ts.foldl (fun und t => undAddPair und s t) und) a →
      a ∈ (ts.foldl (fun und t => undAddPair und s t) und) b
  | [], und, h => h
  | t :: ts, und, h =>
    foldl_undAddPair_symm s ts (undAddPair und s t) (undAddPair_symm und s t h)

/-- The inner fold only grows the relation. -/
theorem foldl_undAddPair_mono (s : String) :
    ∀ (ts : List String) (und : String → List String) (a x : String),
    x ∈ und a → x ∈ (ts.foldl (fun und t => undAddPair und s t) und) a
  | [], _, _, _, h => h
  | t :: ts, und, a, x, h =>
    foldl_undAddPair_mono s ts (undAddPair und s t) a x (undAddPair_mono und s t a x h)

/-- After the inner fold, every processed neighbour is recorded in both
directions. -/
theorem foldl_undAddPair_cover (s : String) :
    ∀ (ts : List String) (und : String → List String) (t : String), t ∈ ts →
    t ∈ (ts.foldl (fun und t => undAddPair und s t) und) s ∧
    s ∈ (ts.foldl (fun und t => undAddPair und s t) und) t
  | [], _, _, h => absurd h (by simp)
  | t' :: ts, und, t, h => by
    rw [List.foldl_cons]
    rcases List.mem_cons.mp h with rfl | h'
    · constructor
      · exact foldl_undAddPair_mono s ts _ s t
          ((mem_undAddPair und s t s t).mpr (Or.inr (Or.inl ⟨rfl, rfl⟩)))
      · exact foldl_undAddPair_mono s ts _ t s
          ((mem_undAddPair und s t t s).mpr (Or.inr (Or.inr ⟨rfl, rfl⟩)))
    · exact foldl_undAddPair_cover s ts (undAddPair und s t') t h'

/-- The inner fold keeps all recorded neighbours inside `ids`, provided
the processed node and its neighbour list are inside `ids`. -/
theorem foldl_undAddPair_range (ids : List String) (s : String) (hs : s ∈ ids) :
    ∀ (ts : List String), (∀ t ∈ ts, t ∈ ids) →
    ∀ (und : String → List String), (∀ a x, x ∈ und a → x ∈ ids) →
    ∀ a x, x ∈ (ts.foldl (fun und t => undAddPair und s t) und) a → x ∈ ids
  | [], _, und, h, a, x, hx => h a x hx
  | t :: ts, hts, und, h, a, x, hx => by
    rw [List.foldl_cons] at hx
    refine foldl_undAddPair_range ids s hs ts (fun t' ht' => hts t' (by simp [ht']))
      (undAddPair und s t) ?_ a x hx
    intro a' x' hx'
    rcases (mem_undAddPair und s t a' x').mp hx' with hin | ⟨ha, hxt⟩ | ⟨ha, hxs⟩
    · exact h a' x' hin
    · rw [hxt]
      exact hts t (by simp)
    · rw [hxs]
      exact hs

/-- The outer symmetrisation fold preserves symmetry. -/
theorem foldl_und_symm :
    ∀ (l : List String) (adj : String → List String) (und : String → List String),
    (∀ a b, b ∈ und a → a ∈ und b) →
    ∀ a b, b ∈ (l.foldl (fun und s =>
        (adj s).foldl (fun und t => undAddPair und s t) und) und) a →
      a ∈ (l.foldl (fun und s =>
        (adj s).foldl (fun und t => undAddPair und s t) und) und) b
  | [], _, und, h => h
  | s :: l, adj, und, h =>
    foldl_und_symm l adj _ (foldl_undAddPair_symm s (adj s) und h)

/-- The outer symmetrisation fold only grows the relation. -/
theorem foldl_und_mono :
    ∀ (l : List String) (adj : String → List String) (und : String → List String)
    (a x : String), x ∈ und a →
    x ∈ (l.foldl (fun und s =>
      (adj s).foldl (fun und t => undAddPair und s t) und) und) a
  | [], _, _, _, _, h => h
  | s :: l, adj, und, a, x, h =>
    foldl_und_mono l adj _ a x (foldl_undAddPair_mono s (adj s) und a x h)

/-- The outer symmetrisation fold keeps everything inside `ids`. -/
theorem foldl_und_range (ids : List String) (adj : String → List String)
    (hadj : ∀ s t, t ∈ adj s → t ∈ ids) :
    ∀ (l : List String), (∀ s ∈ l, s ∈ ids) →
    ∀ (und : String → List String), (∀ a x, x ∈ und a → x ∈ ids) →
    ∀ a x, x ∈ (l.foldl (fun und s =>
      (adj s).foldl (fun und t => undAddPair und s t) und) und) a → x ∈ ids
  | [], _, und, h, a, x, hx => h a x hx
  | s :: l, hl, und, h, a, x, hx => by
    rw [List.foldl_cons] at hx
    refine foldl_und_range ids adj hadj l (fun s' hs' => hl s' (by simp [hs'])) _
      ?_ a x hx
    exact foldl_undAddPair_range ids s (hl s (by simp)) (adj s)
      (fun t ht => hadj s t ht) und h

/-- The symmetric adjacency of `_topo_sort` is symmetric. -/
theorem tsUnd_symm (nodes : List NodeIn) (edges : List EdgeIn) (a b : String)
    (h : b ∈ tsUnd nodes edges a) : a ∈ tsUnd nodes edges b :=
  foldl_und_symm (tsIds nodes) (tsAdj nodes edges) (fun _ => [])
    (fun _ _ hc => absurd hc (by simp)) a b h

/-- The symmetric adjacency stays inside the node-map keys. -/
theorem tsUnd_range (nodes : List NodeIn) (edges : List EdgeIn) (a x : String)
    (h : x ∈ tsUnd nodes edges a) : x ∈ tsIds nodes :=
  foldl_und_range (tsIds nodes) (tsAdj nodes edges)
    (fun s t ht => (tsAdj_endpoints nodes edges s t ht).2.1) (tsIds nodes)
    (fun _ hs => hs) (fun _ => []) (fun _ _ hc => absurd hc (by simp)) a x h

/-- Every directed adjacency is recorded, both ways, in the symmetric
adjacency. -/
theorem tsAdj_subset_tsUnd (nodes : List NodeIn) (edges : List EdgeIn)
    (s t : String) (ht : t ∈ tsAdj nodes edges s) :
    t ∈ tsUnd nodes edges s ∧ s ∈ tsUnd nodes edges t := by
  have hs : s ∈ tsIds nodes := (tsAdj_endpoints nodes edges s t ht).1
  rw [tsUnd, buildUnd]
  obtain ⟨l1, l2, hsplit⟩ := List.append_of_mem hs
  rw [hsplit, List.foldl_append, List.foldl_cons]
  constructor
  · exact foldl_und_mono l2 (tsAdj nodes edges) _ s t
      (foldl_undAddPair_cover s (tsAdj nodes edges s) _ t ht).1
  · exact foldl_und_mono l2 (tsAdj nodes edges) _ t s
      (foldl_undAddPair_cover s (tsAdj nodes edges s) _ t ht).2

/-! ### Component facts and closure -/

/-- The discovered components: their concatenation is a permutation of the
key list, each is duplicate-free, contained in the key list, and no
undirected edge leaves a component for a later one. -/
theorem tsComponents_facts (nodes : List NodeIn) (edges : List EdgeIn) :
    ((tsComponents nodes edges).flatten.Perm (tsIds nodes)) ∧
    (∀ c ∈ tsComponents nodes edges, c.Nodup) ∧
    (∀ c ∈ tsComponents nodes edges, ∀ x ∈ c, x ∈ tsIds nodes) ∧
    List.Pairwise (fun c1 c2 => ∀ u ∈ c1, ∀ x ∈ tsUnd nodes edges u, x ∉ c2)
      (tsComponents nodes edges) := by
  obtain ⟨rp, rn, rs, rc, rpw, rlast⟩ :=
    compsGo_spec (tsUnd nodes edges) (tsIds nodes) (tsIds nodes) (tsIds_nodup nodes)
  have hfinal : (compsGo (tsUnd nodes edges) (tsIds nodes) (tsIds nodes)).2 = [] :=
    rc (fun x hx => hx)
  have hperm : (tsComponents nodes edges).flatten.Perm (tsIds nodes) := by
    have := rp
    rw [hfinal, List.append_nil] at this
    exact this
  have hnodup : (tsComponents nodes edges).flatten.Nodup :=
    hperm.nodup_iff.mpr (tsIds_nodup nodes)
  have hpw := List.nodup_flatten.mp hnodup
  refine ⟨hperm, hpw.1, ?_, rpw⟩
  intro c hc x hx
  exact hperm.subset (List.mem_flatten.mpr ⟨c, hc, hx⟩)

/-- Each component is closed under the undirected adjacency: a neighbour
of a member is a member. -/
theorem tsComponents_closed (nodes : List NodeIn) (edges : List EdgeIn)
    (comp : List String) (hc : comp ∈ tsComponents nodes edges)
    (u : String) (hu : u ∈ comp) (x : String) (hx : x ∈ tsUnd nodes edges u) :
    x ∈ comp := by
  obtain ⟨hperm, hnd, hsub, hpw⟩ := tsComponents_facts nodes edges
  have hxids : x ∈ tsIds nodes := tsUnd_range nodes edges u x hx
  have hxfl : x ∈ (tsComponents nodes edges).flatten := hperm.mem_iff.mpr hxids
  obtain ⟨c2, hc2, hxc2⟩ := List.mem_flatten.mp hxfl
  obtain ⟨k, hk⟩ := List.mem_iff_get.mp hc
  obtain ⟨j, hj⟩ := List.mem_iff_get.mp hc2
  have hget := List.pairwise_iff_get.mp hpw
  rcases lt_trichotomy j.1 k.1 with hlt | heq | hgt
  · exfalso
    have := hget j k (by omega)
    rw [hj, hk] at this
    exact this x hxc2 u (tsUnd_symm nodes edges u x hx) hu
  · have : c2 = comp := by
      rw [← hj, ← hk]
      congr 1
      exact Fin.ext heq
    rw [← this]
    exact hxc2
  · exfalso
    have := hget k j (by omega)
    rw [hj, hk] at this
    exact this u hu x hx hxc2

/-! ### Kahn-loop invariants -/

/-- Functional description of the inner `for v in adj_local[u]` loop: the
queue gains, in neighbour order, exactly the neighbours whose in-degree
value was 1 (and so reaches 0), and every neighbour's value drops by
one. -/
theorem kahnVisit_fold : ∀ (ns : List String), ns.Nodup →
    ∀ (q : List String) (m : String → Int),
    ns.foldl kahnVisit (q, m) =
      (q ++ ns.filter (fun v => decide (m v = 1)),
       fun x => if x ∈ ns then m x - 1 else m x)
  | [], _, q, m => by
    simp only [List.foldl_nil, List.filter_nil, List.append_nil]
    refine Prod.ext rfl ?_
    funext x
    simp
  | v :: ns, hnd, q, m => by
    obtain ⟨hv, hnd'⟩ := List.nodup_cons.mp hnd
    rw [List.foldl_cons]
    have hstep : kahnVisit (q, m) v =
        (if m v = 1 then q ++ [v] else q, Function.update m v (m v - 1)) := by
      rw [kahnVisit]
      simp only [Function.update_same]
      by_cases h1 : m v = 1
      · rw [if_pos (by omega), if_pos h1]
      · rw [if_neg (by omega), if_neg h1]
    rw [hstep, kahnVisit_fold ns hnd' _ _]
    have hfe : ns.filter (fun v' => decide (Function.update m v (m v - 1) v' = 1)) =
        ns.filter (fun v' => decide (m v' = 1)) := by
      refine List.filter_congr ?_
      intro a ha
      have hne : a ≠ v := fun hc => hv (hc ▸ ha)
      simp [Function.update_apply, hne]
    rw [hfe]
    refine Prod.ext ?_ ?_
    · show (if m v = 1 then q ++ [v] else q) ++
          ns.filter (fun v' => decide (m v' = 1)) =
        q ++ (v :: ns).filter (fun v' => decide (m v' = 1))
      rw [List.filter_cons]
      by_cases h1 : m v = 1
      · rw [if_pos h1, if_pos (by simpa using h1)]
        simp
      · rw [if_neg h1, if_neg (by simpa using h1)]
    · show (fun x => if x ∈ ns then Function.update m v (m v - 1) x - 1
          else Function.update m v (m v - 1) x) =
        fun x => if x ∈ v :: ns then m x - 1 else m x
      funext x
      by_cases hxn : x ∈ ns
      · have hne : x ≠ v := fun hc => hv (hc ▸ hxn)
        simp [hxn, hne, Function.update_apply]
      · by_cases hxv : x = v
        · simp [hxn, hxv, Function.update_apply, hv]
        · simp [hxn, hxv, Function.update_apply]

/-- Basic invariants of Kahn's loop, independent of fuel: the emitted
order extends `done`, stays duplicate-free, and stays inside the
component. A node is enqueued only when its in-degree value reaches 0
after a decrement, and values only decrease, so a node already emitted or
queued (its value is already `≤ 0`) is never enqueued twice. -/
theorem kahnF_basic (adj : String → List String) (comp : List String)
    (hadj : ∀ u, (adj u).Nodup) :
    ∀ (fuel : ℕ) (q done : List String) (m : String → Int),
    (done ++ q).Nodup → (∀ x ∈ done ++ q, x ∈ comp) →
    (∀ v ∈ done ++ q, m v ≤ 0) →
    ∃ tail, kahnF adj comp fuel q done m = done ++ tail ∧
      (kahnF adj comp fuel q done m).Nodup ∧
      (∀ x ∈ kahnF adj comp fuel q done m, x ∈ comp) := by
  intro fuel
  induction fuel with
  | zero =>
    intro q done m hnd hsub hval
    match q with
    | [] =>
      rw [kahnF]
      exact ⟨[], by simp, by simpa using hnd, fun x hx => hsub x (by simp [hx])⟩
    | x :: xs =>
      rw [kahnF]
      exact ⟨[], by simp, (List.nodup_append.mp hnd).1,
        fun x hx => hsub x (List.mem_append.mpr (Or.inl hx))⟩
  | succ fuel ih =>
    intro q done m hnd hsub hval
    match q with
    | [] =>
      rw [kahnF]
      exact ⟨[], by simp, by simpa using hnd, fun x hx => hsub x (by simp [hx])⟩
    | u :: rest =>
      rw [kahnF]
      have hnsnd : ((adj u).filter (fun v => decide (v ∈ comp))).Nodup :=
        (hadj u).filter _
      rw [kahnVisit_fold _ hnsnd rest m]
      set ns := (adj u).filter (fun v => decide (v ∈ comp)) with hns
      set newly := ns.filter (fun v => decide (m v = 1)) with hnew
      have hnewly_pos : ∀ v ∈ newly, m v = 1 := by
        intro v hv
        have := (List.mem_filter.mp hv).2
        simpa using this
      have hnewly_ns : ∀ v ∈ newly, v ∈ ns := fun v hv => (List.mem_filter.mp hv).1
      have hnewly_comp : ∀ v ∈ newly, v ∈ comp := by
        intro v hv
        have := (List.mem_filter.mp (hnewly_ns v hv)).2
        simpa using this
      have hX : ((done ++ [u]) ++ rest).Nodup := by
        rw [← List.append_cons]
        exact hnd
      have hdisj : ∀ v ∈ newly, v ∉ (done ++ [u]) ++ rest := by
        intro v hv hc
        have hle : m v ≤ 0 := hval v (by rw [List.append_cons]; exact hc)
        have := hnewly_pos v hv
        omega
      have hnewnd : newly.Nodup := hnsnd.filter _
      have hnd' : ((done ++ [u]) ++ (rest ++ newly)).Nodup := by
        rw [← List.append_assoc, List.nodup_append]
        exact ⟨hX, hnewnd, fun a ha hc => hdisj a hc ha⟩
      have hsub' : ∀ x ∈ (done ++ [u]) ++ (rest ++ newly), x ∈ comp := by
        intro x hx
        rw [← List.append_assoc] at hx
        rcases List.mem_append.mp hx with hx1 | hx1
        · exact hsub x (by rw [List.append_cons]; exact hx1)
        · exact hnewly_comp x hx1
      have hval' : ∀ v ∈ (done ++ [u]) ++ (rest ++ newly),
          (if v ∈ ns then m v - 1 else m v) ≤ 0 := by
        intro v hv
        rw [← List.append_assoc] at hv
        rcases List.mem_append.mp hv with hv1 | hv1
        · have hold : m v ≤ 0 := hval v (by rw [List.append_cons]; exact hv1)
          by_cases hvn : v ∈ ns
          · rw [if_pos hvn]
            omega
          · rw [if_neg hvn]
            exact hold
        · have h1 : m v = 1 := hnewly_pos v hv1
          rw [if_pos (hnewly_ns v hv1), h1]
          omega
      obtain ⟨tail', heq, hndout, hsubout⟩ :=
        ih (rest ++ newly) (done ++ [u]) _ hnd' hsub' hval'
      refine ⟨u :: tail', ?_, hndout, hsubout⟩
      rw [heq, List.append_assoc]
      rfl

/-- C3: for every component — cyclic or not — the scheduler's order is a
duplicate-free permutation of exactly that component's node ids (no
omissions, no intrusions from other components), and by construction the
nodes the Kahn loop could not order are appended after the loop's output
in their original component-list order. -/
theorem claim_C3 (nodes : List NodeIn) (edges : List EdgeIn) (comp : List String)
    (hc : comp ∈ tsComponents nodes edges) :
    (topoComp (tsAdj nodes edges) (tsIndeg nodes edges) comp).Perm comp ∧
    (topoComp (tsAdj nodes edges) (tsIndeg nodes edges) comp).Nodup ∧
    topoComp (tsAdj nodes edges) (tsIndeg nodes edges) comp =
      kahnOrder (tsAdj nodes edges) (tsIndeg nodes edges) comp ++
        comp.filter (fun k =>
          decide (k ∉ kahnOrder (tsAdj nodes edges) (tsIndeg nodes edges) comp)) := by
  have hcomp : comp.Nodup := (tsComponents_facts nodes edges).2.1 comp hc
  have hq0nd : (kahnSeedQueue (tsIndeg nodes edges) comp).Nodup := hcomp.filter _
  obtain ⟨tail, heq, hknd, hksub⟩ := kahnF_basic (tsAdj nodes edges) comp
    (tsAdj_nodup nodes edges)
    ((kahnSeedQueue (tsIndeg nodes edges) comp).length +
      posCnt comp (tsIndeg nodes edges))
    (kahnSeedQueue (tsIndeg nodes edges) comp) [] (tsIndeg nodes edges)
    (by simpa using hq0nd)
    (by
      intro x hx
      have : x ∈ kahnSeedQueue (tsIndeg nodes edges) comp := by simpa using hx
      exact (List.mem_filter.mp this).1)
    (by
      intro v hv
      have : v ∈ kahnSeedQueue (tsIndeg nodes edges) comp := by simpa using hv
      have h0 : tsIndeg nodes edges v = 0 := by
        simpa using (List.mem_filter.mp this).2
      omega)
  set K := kahnOrder (tsAdj nodes edges) (tsIndeg nodes edges) comp with hK
  have hknd' : K.Nodup := hknd
  have hksub' : ∀ x ∈ K, x ∈ comp := hksub
  have hrem_nd : (comp.filter (fun k => decide (k ∉ K))).Nodup := hcomp.filter _
  have happnd : (K ++ comp.filter (fun k => decide (k ∉ K))).Nodup := by
    rw [List.nodup_append]
    refine ⟨hknd', hrem_nd, ?_⟩
    intro a ha hc'
    have := (List.mem_filter.mp hc').2
    simp only [decide_eq_true_eq] at this
    exact this ha
  have hmemiff : ∀ x, x ∈ K ++ comp.filter (fun k => decide (k ∉ K)) ↔ x ∈ comp := by
    intro x
    constructor
    · intro hx
      rcases List.mem_append.mp hx with hx | hx
      · exact hksub' x hx
      · exact (List.mem_filter.mp hx).1
    · intro hx
      by_cases hxk : x ∈ K
      · exact List.mem_append.mpr (Or.inl hxk)
      · exact List.mem_append.mpr (Or.inr (List.mem_filter.mpr ⟨hx, by simpa using hxk⟩))
  have hperm : (K ++ comp.filter (fun k => decide (k ∉ K))).Perm comp :=
    (List.perm_ext_iff_of_nodup happnd hcomp).mpr hmemiff
  exact ⟨hperm, happnd, rfl⟩

/-- Witness for C3 at the concrete cyclic graph `a ↔ b` plus isolated
`c`: the first component is `["a", "b"]` and its computed order is a
duplicate-free permutation of it (here the queue empties immediately and
both nodes come from the cycle fallback). -/
theorem claim_C3_witness :
    (["a", "b"] : List String) ∈
      tsComponents [⟨"a", "x"⟩, ⟨"b", "y"⟩, ⟨"c", "z"⟩]
        [⟨"a", "b"⟩, ⟨"b", "a"⟩] ∧
    ((topoComp (tsAdj [⟨"a", "x"⟩, ⟨"b", "y"⟩, ⟨"c", "z"⟩] [⟨"a", "b"⟩, ⟨"b", "a"⟩])
        (tsIndeg [⟨"a", "x"⟩, ⟨"b", "y"⟩, ⟨"c", "z"⟩] [⟨"a", "b"⟩, ⟨"b", "a"⟩])
        ["a", "b"]).Perm ["a", "b"] ∧
      (topoComp (tsAdj [⟨"a", "x"⟩, ⟨"b", "y"⟩, ⟨"c", "z"⟩] [⟨"a", "b"⟩, ⟨"b", "a"⟩])
        (tsIndeg [⟨"a", "x"⟩, ⟨"b", "y"⟩, ⟨"c", "z"⟩] [⟨"a", "b"⟩, ⟨"b", "a"⟩])
        ["a", "b"]).Nodup ∧
      topoComp (tsAdj [⟨"a", "x"⟩, ⟨"b", "y"⟩, ⟨"c", "z"⟩] [⟨"a", "b"⟩, ⟨"b", "a"⟩])
        (tsIndeg [⟨"a", "x"⟩, ⟨"b", "y"⟩, ⟨"c", "z"⟩] [⟨"a", "b"⟩, ⟨"b", "a"⟩])
        ["a", "b"] =
      kahnOrder (tsAdj [⟨"a", "x"⟩, ⟨"b", "y"⟩, ⟨"c", "z"⟩] [⟨"a", "b"⟩, ⟨"b", "a"⟩])
        (tsIndeg [⟨"a", "x"⟩, ⟨"b", "y"⟩, ⟨"c", "z"⟩] [⟨"a", "b"⟩, ⟨"b", "a"⟩])
        ["a", "b"] ++
        (["a", "b"] : List String).filter (fun k => decide (k ∉
          kahnOrder (tsAdj [⟨"a", "x"⟩, ⟨"b", "y"⟩, ⟨"c", "z"⟩] [⟨"a", "b"⟩, ⟨"b", "a"⟩])
            (tsIndeg [⟨"a", "x"⟩, ⟨"b", "y"⟩, ⟨"c", "z"⟩] [⟨"a", "b"⟩, ⟨"b", "a"⟩])
            ["a", "b"]))) :=
  ⟨by decide,
    claim_C3 [⟨"a", "x"⟩, ⟨"b", "y"⟩, ⟨"c", "z"⟩] [⟨"a", "b"⟩, ⟨"b", "a"⟩]
      ["a", "b"] (by decide)⟩

/-! ### The in-degree counting invariant -/

/-- Number of in-neighbours of `v` inside `comp` that are not yet in
`done`. -/
def inCnt (adj : String → List String) (comp done : List String) (v : String) : ℕ :=
  (comp.filter (fun s => decide (v ∈ adj s) && decide (s ∉ done))).length

/-- Emitting `u` drops `v`'s count by one when `v` is an out-neighbour of
`u`, and leaves it unchanged otherwise. -/
theorem inCnt_emit (adj : String → List String) (comp done : List String)
    (u v : String) (hcomp : comp.Nodup) (hu : u ∈ comp) (hud : u ∉ done) :
    (v ∈ adj u → inCnt adj comp done v = inCnt adj comp (done ++ [u]) v + 1) ∧
    (v ∉ adj u → inCnt adj comp (done ++ [u]) v = inCnt adj comp done v) := by
  constructor
  · intro hv
    refine filter_length_update_true comp hcomp u hu _ _ ?_ ?_ ?_
    · intro s hs
      simp [hs]
    · simp
    · simp [hv, hud]
  · intro hv
    rw [inCnt, inCnt]
    refine congrArg _ (List.filter_congr ?_)
    intro s _
    by_cases hsu : s = u
    · simp [hsu, hv]
    · simp [hsu]

/-- A vanished count means every in-neighbour inside the component has
been emitted. -/
theorem inCnt_zero_iff (adj : String → List String) (comp done : List String)
    (v : String) :
    inCnt adj comp done v = 0 ↔ ∀ s ∈ comp, v ∈ adj s → s ∈ done := by
  rw [inCnt, List.length_eq_zero, List.filter_eq_nil_iff]
  constructor
  · intro h s hs hadj
    by_contra hd
    exact absurd (by simp [hadj, hd]) (h s hs)
  · intro h s hs
    simp only [Bool.and_eq_true, decide_eq_true_eq, not_and]
    intro hadj hd
    exact hd (h s hs hadj)

/-- An unemitted in-neighbour keeps the count positive. -/
theorem inCnt_pos (adj : String → List String) (comp done : List String)
    (u v : String) (hu : u ∈ comp) (hud : u ∉ done) (hadj : v ∈ adj u) :
    1 ≤ inCnt adj comp done v := by
  rw [inCnt]
  have : u ∈ comp.filter (fun s => decide (v ∈ adj s) && decide (s ∉ done)) :=
    List.mem_filter.mpr ⟨hu, by simp [hadj, hud]⟩
  exact List.length_pos.mpr (List.ne_nil_of_mem this)

/-- Pointwise accounting for the Kahn measure: positives of the
decremented map plus the members of `newly` are bounded by the old
positives. -/
theorem posCnt_aux (m m' : String → Int) (newly : List String)
    (hmono : ∀ k, 0 < m' k → 0 < m k)
    (hnew : ∀ k ∈ newly, ¬ 0 < m' k ∧ 0 < m k) :
    ∀ (comp : List String),
    posCnt comp m' + (comp.filter (fun k => decide (k ∈ newly))).length ≤
      posCnt comp m
  | [] => le_rfl
  | k :: rest => by
    have ih := posCnt_aux m m' newly hmono hnew rest
    rw [posCnt, posCnt] at ih
    rw [posCnt, posCnt, List.filter_cons, List.filter_cons, List.filter_cons]
    by_cases hk1 : 0 < m' k
    · have hk2 : 0 < m k := hmono k hk1
      have hkn : k ∉ newly := fun hc => (hnew k hc).1 hk1
      rw [if_pos (by simpa using hk1), if_neg (by simpa using hkn),
        if_pos (by simpa using hk2)]
      simp only [List.length_cons]
      omega
    · rw [if_neg (by simpa using hk1)]
      by_cases hkn : k ∈ newly
      · have hk2 : 0 < m k := (hnew k hkn).2
        rw [if_pos (by simpa using hkn), if_pos (by simpa using hk2)]
        simp only [List.length_cons]
        omega
      · rw [if_neg (by simpa using hkn)]
        by_cases hk2 : 0 < m k
        · rw [if_pos (by simpa using hk2)]
          simp only [List.length_cons]
          omega
        · rw [if_neg (by simpa using hk2)]
          omega

/-- A duplicate-free sublist has the length of its filter. -/
theorem filter_mem_length (newly comp : List String) (hnd : newly.Nodup)
    (hcomp : comp.Nodup) (hsub : ∀ k ∈ newly, k ∈ comp) :
    (comp.filter (fun k => decide (k ∈ newly))).length = newly.length := by
  refine List.Perm.length_eq ?_
  refine (List.perm_ext_iff_of_nodup (hcomp.filter _) hnd).mpr ?_
  intro x
  rw [List.mem_filter]
  constructor
  · rintro ⟨_, hx⟩
    simpa using hx
  · intro hx
    exact ⟨hsub x hx, by simpa using hx⟩

/-- The full Kahn-loop invariant, for adequate fuel: on termination a
component member is in the output exactly when all its in-neighbours
inside the component are, and every internal edge into an output node
comes from a node placed strictly earlier. -/
theorem kahnF_strong (adj : String → List String) (comp : List String)
    (hadj : ∀ u, (adj u).Nodup) (hcomp : comp.Nodup) :
    ∀ (fuel : ℕ) (q done : List String) (m : String → Int),
    (done ++ q).Nodup →
    (∀ x ∈ done ++ q, x ∈ comp) →
    (∀ v ∈ comp, m v = (inCnt adj comp done v : ℤ)) →
    (∀ v ∈ comp, ((v ∈ done ∨ v ∈ q) ↔ inCnt adj comp done v = 0)) →
    (∀ v ∈ done, ∀ s ∈ comp, v ∈ adj s →
        s ∈ done ∧ List.indexOf s done < List.indexOf v done) →
    q.length + posCnt comp m ≤ fuel →
    (∀ v ∈ comp, (v ∈ kahnF adj comp fuel q done m ↔
        inCnt adj comp (kahnF adj comp fuel q done m) v = 0)) ∧
    (∀ v ∈ kahnF adj comp fuel q done m, ∀ s ∈ comp, v ∈ adj s →
        s ∈ kahnF adj comp fuel q done m ∧
        List.indexOf s (kahnF adj comp fuel q done m) <
          List.indexOf v (kahnF adj comp fuel q done m)) := by
  intro fuel
  induction fuel with
  | zero =>
    intro q done m hnd hsub hm hiff hord hfuel
    match q with
    | [] =>
      rw [kahnF]
      refine ⟨fun v hv => ?_, hord⟩
      have := hiff v hv
      simpa using this
    | x :: xs =>
      rw [List.length_cons] at hfuel
      omega
  | succ fuel ih =>
    intro q done m hnd hsub hm hiff hord hfuel
    match q with
    | [] =>
      rw [kahnF]
      refine ⟨fun v hv => ?_, hord⟩
      have := hiff v hv
      simpa using this
    | u :: rest =>
      rw [kahnF]
      have hnsnd : ((adj u).filter (fun v => decide (v ∈ comp))).Nodup :=
        (hadj u).filter _
      rw [kahnVisit_fold _ hnsnd rest m]
      set ns := (adj u).filter (fun v => decide (v ∈ comp)) with hns
      set newly := ns.filter (fun v => decide (m v = 1)) with hnew
      have hu_comp : u ∈ comp := hsub u (by simp)
      have hu_notdone : u ∉ done := by
        have := (List.nodup_append.mp hnd).2.2
        intro hc
        exact this hc (by simp)
      have hu_notrest : u ∉ rest := by
        have := ((List.nodup_append.mp hnd).2.1)
        exact (List.nodup_cons.mp this).1
      have hcnt_u : inCnt adj comp done u = 0 :=
        (hiff u hu_comp).mp (Or.inr (by simp))
      have hmem_ns : ∀ v, v ∈ comp → (v ∈ ns ↔ v ∈ adj u) := by
        intro v hv
        rw [hns, List.mem_filter]
        constructor
        · exact fun h => h.1
        · exact fun h => ⟨h, by simpa using hv⟩
      have hnewly_m1 : ∀ v ∈ newly, m v = 1 := by
        intro v hv
        have := (List.mem_filter.mp hv).2
        simpa using this
      have hnewly_ns : ∀ v ∈ newly, v ∈ ns := fun v hv => (List.mem_filter.mp hv).1
      have hnewly_comp : ∀ v ∈ newly, v ∈ comp := by
        intro v hv
        have := (List.mem_filter.mp (hnewly_ns v hv)).2
        simpa using this
      have hnewly_adj : ∀ v ∈ newly, v ∈ adj u := fun v hv =>
        (List.mem_filter.mp (hnewly_ns v hv)).1
      have hm'_val : ∀ v ∈ comp,
          (if v ∈ ns then m v - 1 else m v) =
            (inCnt adj comp (done ++ [u]) v : ℤ) := by
        intro v hv
        by_cases hvadj : v ∈ adj u
        · have hvns : v ∈ ns := (hmem_ns v hv).mpr hvadj
          have hdrop := (inCnt_emit adj comp done u v hcomp hu_comp hu_notdone).1 hvadj
          rw [if_pos hvns, hm v hv, hdrop]
          push_cast
          ring
        · have hvns : v ∉ ns := fun hc => hvadj ((hmem_ns v hv).mp hc)
          have hsame := (inCnt_emit adj comp done u v hcomp hu_comp hu_notdone).2 hvadj
          rw [if_neg hvns, hm v hv, hsame]
      have hiff' : ∀ v ∈ comp,
          ((v ∈ done ++ [u] ∨ v ∈ rest ++ newly) ↔
            inCnt adj comp (done ++ [u]) v = 0) := by
        intro v hv
        by_cases hvadj : v ∈ adj u
        · have h1le : 1 ≤ inCnt adj comp done v :=
            inCnt_pos adj comp done u v hu_comp hu_notdone hvadj
          have hdrop := (inCnt_emit adj comp done u v hcomp hu_comp hu_notdone).1 hvadj
          constructor
          · intro hin
            rcases hin with hin | hin
            · rcases List.mem_append.mp hin with hin | hin
              · have := (hiff v hv).mp (Or.inl hin)
                omega
              · have hvu : v = u := by simpa using hin
                rw [hvu] at h1le
                omega
            · rcases List.mem_append.mp hin with hin | hin
              · have := (hiff v hv).mp (Or.inr (by simp [hin]))
                omega
              · have := hnewly_m1 v hin
                rw [hm v hv] at this
                omega
          · intro h0
            have hc1 : inCnt adj comp done v = 1 := by omega
            have hmv : m v = 1 := by
              rw [hm v hv, hc1]
              rfl
            have hvns : v ∈ ns := (hmem_ns v hv).mpr hvadj
            have : v ∈ newly := List.mem_filter.mpr ⟨hvns, by simpa using hmv⟩
            exact Or.inr (List.mem_append.mpr (Or.inr this))
        · have hsame := (inCnt_emit adj comp done u v hcomp hu_comp hu_notdone).2 hvadj
          rw [hsame]
          constructor
          · intro hin
            rcases hin with hin | hin
            · rcases List.mem_append.mp hin with hin | hin
              · exact (hiff v hv).mp (Or.inl hin)
              · have hvu : v = u := by simpa using hin
                rw [hvu]
                exact hcnt_u
            · rcases List.mem_append.mp hin with hin | hin
              · exact (hiff v hv).mp (Or.inr (by simp [hin]))
              · exact absurd ((hmem_ns v hv).mp (hnewly_ns v hin)) hvadj
          · intro h0
            rcases (hiff v hv).mpr h0 with hin | hin
            · exact Or.inl (List.mem_append.mpr (Or.inl hin))
            · rcases List.mem_cons.mp hin with rfl | hin
              · exact Or.inl (List.mem_append.mpr (Or.inr (by simp)))
              · exact Or.inr (List.mem_append.mpr (Or.inl hin))
      have hord' : ∀ v ∈ done ++ [u], ∀ s ∈ comp, v ∈ adj s →
          s ∈ done ++ [u] ∧
          List.indexOf s (done ++ [u]) < List.indexOf v (done ++ [u]) := by
        intro v hv s hs hadj'
        rcases List.mem_append.mp hv with hvd | hvu
        · obtain ⟨hsd, hidx⟩ := hord v hvd s hs hadj'
          refine ⟨List.mem_append.mpr (Or.inl hsd), ?_⟩
          rw [List.indexOf_append_of_mem hsd, List.indexOf_append_of_mem hvd]
          exact hidx
        · have hvu' : v = u := by simpa using hvu
          subst hvu'
          have hsd : s ∈ done := by
            have := (inCnt_zero_iff adj comp done v).mp hcnt_u s hs hadj'
            exact this
          refine ⟨List.mem_append.mpr (Or.inl hsd), ?_⟩
          rw [List.indexOf_append_of_mem hsd,
            List.indexOf_append_of_not_mem hu_notdone]
          have : List.indexOf s done < done.length := List.indexOf_lt_length.mpr hsd
          simp only [List.indexOf_cons_self]
          omega
      have hnd' : ((done ++ [u]) ++ (rest ++ newly)).Nodup := by
        rw [← List.append_assoc, List.nodup_append]
        refine ⟨by rw [← List.append_cons]; exact hnd, hnsnd.filter _, ?_⟩
        intro a ha hc
        have hm1 : m a = 1 := hnewly_m1 a hc
        have hacomp : a ∈ comp := hnewly_comp a hc
        have : inCnt adj comp done a = 0 := by
          refine (hiff a hacomp).mp ?_
          rcases List.mem_append.mp ha with ha1 | ha1
          · rcases List.mem_append.mp ha1 with ha2 | ha2
            · exact Or.inl ha2
            · refine Or.inr ?_
              have : a = u := by simpa using ha2
              simp [this]
          · exact Or.inr (by simp [ha1])
        rw [hm a hacomp] at hm1
        omega
      have hsub' : ∀ x ∈ (done ++ [u]) ++ (rest ++ newly), x ∈ comp := by
        intro x hx
        rw [← List.append_assoc] at hx
        rcases List.mem_append.mp hx with hx1 | hx1
        · exact hsub x (by rw [List.append_cons]; exact hx1)
        · exact hnewly_comp x hx1
      have hfuel' : (rest ++ newly).length +
          posCnt comp (fun x => if x ∈ ns then m x - 1 else m x) ≤ fuel := by
        have hdrop := posCnt_aux m (fun x => if x ∈ ns then m x - 1 else m x) newly
          (by
            intro k hk
            have hk' : 0 < if k ∈ ns then m k - 1 else m k := hk
            by_cases hkn : k ∈ ns
            · rw [if_pos hkn] at hk'
              omega
            · rwa [if_neg hkn] at hk')
          (by
            intro k hk
            have h1 : m k = 1 := hnewly_m1 k hk
            have hkns : k ∈ ns := hnewly_ns k hk
            constructor
            · show ¬ 0 < if k ∈ ns then m k - 1 else m k
              rw [if_pos hkns, h1]
              norm_num
            · rw [h1]
              norm_num)
          comp
        rw [filter_mem_length newly comp (hnsnd.filter _) hcomp hnewly_comp] at hdrop
        rw [List.length_append]
        rw [List.length_cons] at hfuel
        omega
      obtain ⟨hiffout, hordout⟩ := ih (rest ++ newly) (done ++ [u])
        (fun x => if x ∈ ns then m x - 1 else m x) hnd' hsub' hm'_val hiff' hord' hfuel'
      exact ⟨hiffout, hordout⟩

/-! ### Acyclicity and completeness of the Kahn loop -/

/-- The internal edge relation of a component: an input edge whose two
endpoints both lie in the component. -/
def compEdgeRel (edges : List EdgeIn) (comp : List String) (a b : String) : Prop :=
  a ∈ comp ∧ b ∈ comp ∧ ∃ e ∈ edges, e.source = a ∧ e.target = b

/-- A finite non-empty set in which every element has a predecessor
inside the set contains a cycle. -/
theorem exists_transGen_cycle (r : String → String → Prop) (S : List String)
    (hne : S ≠ []) (h : ∀ v ∈ S, ∃ s ∈ S, r s v) :
    ∃ x, Relation.TransGen r x x := by
  classical
  obtain ⟨v0, hv0⟩ := List.exists_mem_of_ne_nil S hne
  have hT : ∀ x : {y // y ∈ S.toFinset}, ∃ s : {y // y ∈ S.toFinset}, r s.val x.val := by
    rintro ⟨x, hx⟩
    obtain ⟨s, hs, hr⟩ := h x (List.mem_toFinset.mp hx)
    exact ⟨⟨s, List.mem_toFinset.mpr hs⟩, hr⟩
  choose g hg using hT
  set f : ℕ → {y // y ∈ S.toFinset} :=
    fun n => g^[n] ⟨v0, List.mem_toFinset.mpr hv0⟩ with hf
  have hstep : ∀ n, r (f (n + 1)).val (f n).val := by
    intro n
    have hit : f (n + 1) = g (f n) := Function.iterate_succ_apply' g n _
    rw [hit]
    exact hg (f n)
  have hchain : ∀ n k, Relation.TransGen r (f (n + k + 1)).val (f n).val := by
    intro n k
    induction k with
    | zero => exact Relation.TransGen.single (hstep n)
    | succ k ihk =>
      have harith : n + (k + 1) + 1 = (n + k + 1) + 1 := by omega
      rw [harith]
      exact Relation.TransGen.head (hstep (n + k + 1)) ihk
  obtain ⟨a, b, hab, heq⟩ := Finite.exists_ne_map_eq_of_infinite f
  rcases lt_or_gt_of_ne hab with hlt | hlt
  · have hb : b = a + (b - a - 1) + 1 := by omega
    have hcyc := hchain a (b - a - 1)
    rw [← hb] at hcyc
    rw [heq] at hcyc
    exact ⟨(f b).val, hcyc⟩
  · have ha : a = b + (a - b - 1) + 1 := by omega
    have hcyc := hchain b (a - b - 1)
    rw [← ha] at hcyc
    rw [← heq] at hcyc
    exact ⟨(f a).val, hcyc⟩

/-- Inside a discovered component, the global in-degree of a member
counts exactly its in-neighbours within the component: weak-connectivity
closure keeps all in-neighbours inside. -/
theorem tsIndeg_eq_inCnt (nodes : List NodeIn) (edges : List EdgeIn)
    (comp : List String) (hc : comp ∈ tsComponents nodes edges)
    (v : String) (hv : v ∈ comp) :
    tsIndeg nodes edges v = (inCnt (tsAdj nodes edges) comp [] v : ℤ) := by
  rw [tsIndeg_count]
  have hcompnd : comp.Nodup := (tsComponents_facts nodes edges).2.1 comp hc
  have hsubids : ∀ x ∈ comp, x ∈ tsIds nodes :=
    (tsComponents_facts nodes edges).2.2.1 comp hc
  have hfe : comp.filter (fun s => decide (v ∈ tsAdj nodes edges s) &&
      decide (s ∉ ([] : List String))) =
      comp.filter (fun s => decide (v ∈ tsAdj nodes edges s)) := by
    refine List.filter_congr ?_
    intro s _
    simp
  rw [inCnt, hfe]
  congr 1
  refine List.Perm.length_eq ?_
  refine (List.perm_ext_iff_of_nodup ((tsIds_nodup nodes).filter _)
    (hcompnd.filter _)).mpr ?_
  intro s
  rw [List.mem_filter, List.mem_filter]
  constructor
  · rintro ⟨hsids, hsadj⟩
    have hadj : v ∈ tsAdj nodes edges s := by simpa using hsadj
    have hsund : s ∈ tsUnd nodes edges v := (tsAdj_subset_tsUnd nodes edges s v hadj).2
    exact ⟨tsComponents_closed nodes edges comp hc v hv s hsund, hsadj⟩
  · rintro ⟨hscomp, hsadj⟩
    exact ⟨hsubids s hscomp, hsadj⟩

/-- C2: on a component whose internal edge set is acyclic, the computed
order places the source of every internal edge strictly before its
target. (Under acyclicity the Kahn loop orders the whole component, so
the cycle fallback contributes nothing.) -/
theorem claim_C2 (nodes : List NodeIn) (edges : List EdgeIn) (comp : List String)
    (hc : comp ∈ tsComponents nodes edges)
    (hacyc : ∀ x, ¬ Relation.TransGen (compEdgeRel edges comp) x x) :
    ∀ e ∈ edges, e.source ∈ comp → e.target ∈ comp →
      List.indexOf e.source
          (topoComp (tsAdj nodes edges) (tsIndeg nodes edges) comp) <
        List.indexOf e.target
          (topoComp (tsAdj nodes edges) (tsIndeg nodes edges) comp) := by
  have hcompnd : comp.Nodup := (tsComponents_facts nodes edges).2.1 comp hc
  have hsubids : ∀ x ∈ comp, x ∈ tsIds nodes :=
    (tsComponents_facts nodes edges).2.2.1 comp hc
  have h4 : ∀ v ∈ comp, ((v ∈ ([] : List String) ∨
      v ∈ kahnSeedQueue (tsIndeg nodes edges) comp) ↔
      inCnt (tsAdj nodes edges) comp [] v = 0) := by
    intro v hv
    simp only [List.not_mem_nil, false_or]
    constructor
    · intro hq
      have h0 : tsIndeg nodes edges v = 0 := by
        simpa using (List.mem_filter.mp hq).2
      have := tsIndeg_eq_inCnt nodes edges comp hc v hv
      rw [h0] at this
      exact_mod_cast this.symm
    · intro h0
      refine List.mem_filter.mpr ⟨hv, ?_⟩
      have := tsIndeg_eq_inCnt nodes edges comp hc v hv
      rw [h0] at this
      simpa using this
  obtain ⟨hiffK, hordK⟩ := kahnF_strong (tsAdj nodes edges) comp
    (tsAdj_nodup nodes edges) hcompnd
    ((kahnSeedQueue (tsIndeg nodes edges) comp).length +
      posCnt comp (tsIndeg nodes edges))
    (kahnSeedQueue (tsIndeg nodes edges) comp) [] (tsIndeg nodes edges)
    (by simpa using hcompnd.filter _)
    (by
      intro x hx
      have : x ∈ kahnSeedQueue (tsIndeg nodes edges) comp := by simpa using hx
      exact (List.mem_filter.mp this).1)
    (fun v hv => tsIndeg_eq_inCnt nodes edges comp hc v hv)
    h4
    (fun v hv => absurd hv (List.not_mem_nil v))
    le_rfl
  have hKdef : kahnOrder (tsAdj nodes edges) (tsIndeg nodes edges) comp =
      kahnF (tsAdj nodes edges) comp
        ((kahnSeedQueue (tsIndeg nodes edges) comp).length +
          posCnt comp (tsIndeg nodes edges))
        (kahnSeedQueue (tsIndeg nodes edges) comp) [] (tsIndeg nodes edges) := rfl
  rw [← hKdef] at hiffK hordK
  set K := kahnOrder (tsAdj nodes edges) (tsIndeg nodes edges) comp with hKs
  have hcompK : ∀ v ∈ comp, v ∈ K := by
    by_contra hcon
    push_neg at hcon
    obtain ⟨v0, hv0, hv0K⟩ := hcon
    have hv0S : v0 ∈ comp.filter (fun v => decide (v ∉ K)) :=
      List.mem_filter.mpr ⟨hv0, by simpa using hv0K⟩
    have hSne : comp.filter (fun v => decide (v ∉ K)) ≠ [] :=
      List.ne_nil_of_mem hv0S
    have hpred : ∀ w ∈ comp.filter (fun v => decide (v ∉ K)),
        ∃ s ∈ comp.filter (fun v => decide (v ∉ K)), compEdgeRel edges comp s w := by
      intro w hw
      obtain ⟨hwcomp, hwK'⟩ := List.mem_filter.mp hw
      have hwK : w ∉ K := by simpa using hwK'
      have hcnt : inCnt (tsAdj nodes edges) comp K w ≠ 0 :=
        fun h0 => hwK ((hiffK w hwcomp).mpr h0)
      have hnall : ¬ ∀ s ∈ comp, w ∈ tsAdj nodes edges s → s ∈ K :=
        fun hall => hcnt ((inCnt_zero_iff (tsAdj nodes edges) comp K w).mpr hall)
      push_neg at hnall
      obtain ⟨s, hscomp, hsadj, hsK⟩ := hnall
      refine ⟨s, List.mem_filter.mpr ⟨hscomp, by simpa using hsK⟩, ?_⟩
      obtain ⟨_, _, _, hedge⟩ := (mem_tsAdj_iff nodes edges s w).mp hsadj
      exact ⟨hscomp, hwcomp, hedge⟩
    obtain ⟨x, hx⟩ := exists_transGen_cycle (compEdgeRel edges comp) _ hSne hpred
    exact hacyc x hx
  have hrem : comp.filter (fun k => decide (k ∉ K)) = [] := by
    rw [List.filter_eq_nil_iff]
    intro a ha
    simp [hcompK a ha]
  have htopo : topoComp (tsAdj nodes edges) (tsIndeg nodes edges) comp = K := by
    rw [topoComp, ← hKs, hrem, List.append_nil]
  intro e he hs ht
  have hne : e.source ≠ e.target := by
    intro hst
    exact hacyc e.source (Relation.TransGen.single
      ⟨hs, hs, e, he, rfl, hst.symm⟩)
  have hadj : e.target ∈ tsAdj nodes edges e.source :=
    (mem_tsAdj_iff nodes edges e.source e.target).mpr
      ⟨hsubids e.source hs, hsubids e.target ht, hne, e, he, rfl, rfl⟩
  obtain ⟨hsK, hidx⟩ := hordK e.target (hcompK e.target ht) e.source hs hadj
  rw [htopo]
  exact hidx

/-- In the two-node witness graph `a → b`, the internal edge relation is
acyclic. -/
theorem witC2_acyclic : ∀ x, ¬ Relation.TransGen
    (compEdgeRel [(⟨"a", "b"⟩ : EdgeIn)] ["a", "b"]) x x := by
  have hstep : ∀ p q : String,
      compEdgeRel [(⟨"a", "b"⟩ : EdgeIn)] ["a", "b"] p q →
      p = "a" ∧ q = "b" := by
    rintro p q ⟨_, _, e, he, hs, ht⟩
    have : e = (⟨"a", "b"⟩ : EdgeIn) := by simpa using he
    subst this
    exact ⟨hs.symm, ht.symm⟩
  have hchain : ∀ p q : String,
      Relation.TransGen (compEdgeRel [(⟨"a", "b"⟩ : EdgeIn)] ["a", "b"]) p q →
      p = "a" ∧ q = "b" := by
    intro p q h
    induction h with
    | single h => exact hstep _ _ h
    | tail hpr hr ih =>
      obtain ⟨hb, _⟩ := hstep _ _ hr
      obtain ⟨hpa, hbb⟩ := ih
      rw [hb] at hbb
      exact absurd hbb (by decide)
  intro x hx
  obtain ⟨h1, h2⟩ := hchain x x hx
  rw [h1] at h2
  exact absurd h2 (by decide)

/-- Witness for C2 on the graph `a → b` (plus no other nodes): the edge's
source is placed strictly before its target in the computed order. -/
theorem claim_C2_witness :
    ((["a", "b"] : List String) ∈
        tsComponents [⟨"a", "x"⟩, ⟨"b", "y"⟩] [⟨"a", "b"⟩] ∧
      (⟨"a", "b"⟩ : EdgeIn) ∈ [(⟨"a", "b"⟩ : EdgeIn)] ∧
      (⟨"a", "b"⟩ : EdgeIn).source ∈ (["a", "b"] : List String) ∧
      (⟨"a", "b"⟩ : EdgeIn).target ∈ (["a", "b"] : List String)) ∧
    List.indexOf (⟨"a", "b"⟩ : EdgeIn).source
        (topoComp (tsAdj [⟨"a", "x"⟩, ⟨"b", "y"⟩] [⟨"a", "b"⟩])
          (tsIndeg [⟨"a", "x"⟩, ⟨"b", "y"⟩] [⟨"a", "b"⟩]) ["a", "b"]) <
      List.indexOf (⟨"a", "b"⟩ : EdgeIn).target
        (topoComp (tsAdj [⟨"a", "x"⟩, ⟨"b", "y"⟩] [⟨"a", "b"⟩])
          (tsIndeg [⟨"a", "x"⟩, ⟨"b", "y"⟩] [⟨"a", "b"⟩]) ["a", "b"]) :=
  ⟨⟨by decide, by decide, by decide, by decide⟩,
    claim_C2 [⟨"a", "x"⟩, ⟨"b", "y"⟩] [⟨"a", "b"⟩] ["a", "b"] (by decide)
      witC2_acyclic ⟨"a", "b"⟩ (by decide) (by decide) (by decide)⟩
